import Mathlib

/-!
Shallow embedding of the samantha-llm subconscious pipeline core
(conversation chunker, session workspace state store, chunk-processing
worker loop, retry coordinator, result merger, session merge process),
with theorems checking the natural-language specification against it.

Texts are modelled as `List Char` in the chunker (Python slicing) and as
`String` elsewhere; machine integers are `Nat` (Python ints are unbounded
and all quantities here are non-negative).
-/

namespace Samantha

/-- Python `\s` on the ASCII range (space, tab, newline, carriage return,
form feed, vertical tab), as used by `re.split(r'(?<=[.!?])\s+', ...)`
and `str.strip()`. -/
def pySpace (c : Char) : Bool :=
  c = ' ' || c = '\t' || c = '\n' || c = '\r' || c = Char.ofNat 11 || c = Char.ofNat 12

/-- Python `str.strip()` on a char list. -/
def pyStripL (cs : List Char) : List Char :=
  ((cs.dropWhile pySpace).reverse.dropWhile pySpace).reverse

/-- Python `str.strip()`. -/
def pyStrip (s : String) : String :=
  String.mk (pyStripL s.data)

/-- Python `str.lower()` (ASCII case fold, which is all the pipeline feeds it). -/
def pyLower (s : String) : String :=
  String.mk (s.data.map Char.toLower)

end Samantha

namespace Samantha.Chunker

/-- `conversation_chunker.Chunk`: a chunk of conversation with metadata. -/
structure Chunk where
  text : List Char
  start_char : Nat
  end_char : Nat
  chunk_index : Nat
  total_chunks : Nat
  boundary_reason : String
deriving Repr, DecidableEq

/-- Python slice `text[a:b]`. -/
def slice (text : List Char) (a b : Nat) : List Char :=
  (text.drop a).take (b - a)

/-- The apostrophe character (appears in the `task_transition` regex). -/
def apos : Char := Char.ofNat 39

/-- Case-insensitive match of a literal at the head of `cs`
(`re.IGNORECASE` applies to all five boundary patterns).
Returns the remaining suffix on success. -/
def matchLitCI : List Char → List Char → Option (List Char)
  | [], cs => some cs
  | _ :: _, [] => none
  | p :: ps, c :: cs => if p.toLower = c.toLower then matchLitCI ps cs else none

/-- Try alternatives in order (regex alternation `a|b|c`): first branch
whose literal matches wins. -/
def matchAltCI (alts : List (List Char)) (cs : List Char) : Option (List Char) :=
  match alts with
  | [] => none
  | a :: rest =>
    match matchLitCI a cs with
    | some cs' => some cs'
    | none => matchAltCI rest cs

/-- Length of the match of `</function_results>` at the head of `cs`, if any. -/
def matchToolResult (cs : List Char) : Option Nat :=
  (matchLitCI "</function_results>".data cs).map (fun rest => cs.length - rest.length)

/-- Length of a match of `\nFile (?:created|updated|modified)` at the head
of `cs`, if any. -/
def matchFileOp (cs : List Char) : Option Nat :=
  match matchLitCI "\nFile ".data cs with
  | none => none
  | some cs' =>
    (matchAltCI ["created".data, "updated".data, "modified".data] cs').map
      (fun rest => cs.length - rest.length)

/-- Length of a match of `(?:tests? (?:passing|failing|complete))` at the
head of `cs`, if any. The greedy `s?` tries the branch with `s` first and
backtracks to the branch without it. -/
def matchTestExec (cs : List Char) : Option Nat :=
  match matchLitCI "test".data cs with
  | none => none
  | some cs' =>
    let tail := fun (rest : List Char) =>
      (matchAltCI ["passing".data, "failing".data, "complete".data] rest).map
        (fun r => cs.length - r.length)
    match matchLitCI "s ".data cs' with
    | some cs'' =>
      match tail cs'' with
      | some n => some n
      | none =>
        match matchLitCI " ".data cs' with
        | some cs'' => tail cs''
        | none => none
    | none =>
      match matchLitCI " ".data cs' with
      | some cs'' => tail cs''
      | none => none

/-- Length of a match of `(?:Next|Now|Okay),? (?:let's|I'll)` at the head
of `cs`, if any. Alternatives and the greedy `,?` are tried in regex
backtracking order. -/
def matchTaskTransition (cs : List Char) : Option Nat :=
  let second := fun (rest : List Char) =>
    (matchAltCI ["let".data ++ [apos] ++ "s".data, "I".data ++ [apos] ++ "ll".data] rest).map
      (fun r => cs.length - r.length)
  let afterFirst := fun (cs' : List Char) =>
    match matchLitCI ", ".data cs' with
    | some cs'' =>
      match second cs'' with
      | some n => some n
      | none =>
        match matchLitCI " ".data cs' with
        | some cs'' => second cs''
        | none => none
    | none =>
      match matchLitCI " ".data cs' with
      | some cs'' => second cs''
      | none => none
  let rec tryFirst : List (List Char) → Option Nat
    | [] => none
    | a :: rest =>
      match matchLitCI a cs with
      | some cs' =>
        match afterFirst cs' with
        | some n => some n
        | none => tryFirst rest
      | none => tryFirst rest
  tryFirst ["Next".data, "Now".data, "Okay".data]

/-- Length of a match of `\n\n+` at the head of `cs`, if any
(greedy: the whole newline run, which must have length at least 2). -/
def matchParagraphBreak (cs : List Char) : Option Nat :=
  let run := (cs.takeWhile (· = '\n')).length
  if 2 ≤ run then some run else none

/-- `re.finditer` end positions: scan left to right, at each position try
the pattern; a (non-empty) match is recorded by its end position and
scanning resumes there, otherwise advance one character. `fuel` bounds the
scan (the wrapper passes the text length, which is exactly enough). -/
def finditerEnds (matchLen : List Char → Option Nat) :
    Nat → Nat → List Char → List Nat
  | 0, _, _ => []
  | _ + 1, _, [] => []
  | fuel + 1, pos, c :: cs =>
    match matchLen (c :: cs) with
    | some len =>
      if len = 0 then finditerEnds matchLen fuel (pos + 1) cs
      else (pos + len) :: finditerEnds matchLen fuel (pos + len) ((c :: cs).drop len)
    | none => finditerEnds matchLen fuel (pos + 1) cs

/-- The five boundary patterns of `ConversationChunker._find_boundaries`,
in source order, paired with their reasons. -/
def boundaryPatterns : List ((List Char → Option Nat) × String) :=
  [(matchToolResult, "tool_result_end"),
   (matchFileOp, "file_operation"),
   (matchTestExec, "test_execution"),
   (matchTaskTransition, "task_transition"),
   (matchParagraphBreak, "paragraph_break")]

/-- `ConversationChunker._find_boundaries`: position-to-reason map; when
several patterns produce the same end position, the pattern listed first
wins (`if pos not in boundaries`). Kept as an association list in
insertion order (a Python dict). -/
def findBoundaries (text : List Char) : List (Nat × String) :=
  boundaryPatterns.foldl
    (fun acc pr =>
      (finditerEnds pr.1 text.length 0 text).foldl
        (fun acc pos =>
          if (acc.lookup pos).isSome then acc else acc ++ [(pos, pr.2)])
        acc)
    []

/-- Absolute difference on `Nat` (Python `abs(b - target)`). -/
def dist (a b : Nat) : Nat := max a b - min a b

/-- Python `min(valid_boundaries, key=lambda b: abs(b - target))`:
first element of the list attaining the minimal key (Python `min` keeps
the earliest element on ties). -/
def argminDist (target : Nat) : List Nat → Option Nat
  | [] => none
  | x :: xs => some (xs.foldl (fun best b => if dist b target < dist best target then b else best) x)

/-- `ConversationChunker._find_nearest_boundary`: nearest boundary to
`target` within `[min_pos + min_size, min (target + target_size / 2) max_pos]`,
or `none`. -/
def findNearestBoundary (target_size min_size : Nat) (boundaries : List Nat)
    (target min_pos max_pos : Nat) : Option Nat :=
  let min_boundary := min_pos + min_size
  let max_boundary := min (target + target_size / 2) max_pos
  let valid := boundaries.filter (fun b => min_boundary ≤ b && b ≤ max_boundary)
  argminDist target valid

/-- The loop of `ConversationChunker._select_split_points`, with explicit
fuel standing for the `while current_pos < text_length` loop. The wrapper
passes `text_length + 1`. When `target_size ≥ 1` and `min_size ≥ 1` every
iteration advances `current_pos` by at least one (a chosen boundary is at
least `current_pos + min_size`, the fallback step is `target_size`), so
the fuel is exact and this equals the source loop. When `min_size = 0`
the source can re-choose a boundary equal to `current_pos` forever (and
with `target_size = 0` it re-splits at `current_pos` forever): the source
never returns, while this model stops when the fuel runs out. Theorems
that claim properties of what `chunk` *returns* therefore assume positive
sizes, except where the property is vacuous in the stalled case. -/
def selectSplitPointsGo (target_size min_size : Nat) (boundaries : List Nat)
    (text_length : Nat) : Nat → Nat → List Nat
  | 0, _ => []
  | fuel + 1, current_pos =>
    if current_pos < text_length then
      let target_pos := current_pos + target_size
      if target_pos ≥ text_length then []
      else
        match findNearestBoundary target_size min_size boundaries target_pos current_pos text_length with
        | some b => b :: selectSplitPointsGo target_size min_size boundaries text_length fuel b
        | none => target_pos :: selectSplitPointsGo target_size min_size boundaries text_length fuel target_pos
    else []

/-- `ConversationChunker._select_split_points`. -/
def selectSplitPoints (target_size min_size : Nat) (boundaries : List Nat)
    (text_length : Nat) : List Nat :=
  selectSplitPointsGo target_size min_size boundaries text_length (text_length + 1) 0

/-- The chunk-building loop of `_chunk_natural_boundaries`: one chunk per
split point, then a final chunk covering the remainder when the last split
point falls short of the text end. `total_chunks` is backfilled by the
caller. -/
def buildNaturalChunks (text : List Char) (reasons : List (Nat × String)) :
    List Nat → Nat → Nat → List Chunk
  | [], start, idx =>
    if start < text.length then
      [{ text := text.drop start, start_char := start, end_char := text.length,
         chunk_index := idx, total_chunks := 0, boundary_reason := "end_of_conversation" }]
    else []
  | e :: rest, start, idx =>
    { text := slice text start e, start_char := start, end_char := e,
      chunk_index := idx, total_chunks := 0,
      boundary_reason := (reasons.lookup e).getD "target_size_reached" } ::
      buildNaturalChunks text reasons rest e (idx + 1)

/-- Backfill `total_chunks` with the final count (the `for chunk in chunks`
loop at the end of each strategy). -/
def setTotals (chunks : List Chunk) : List Chunk :=
  chunks.map (fun c => { c with total_chunks := chunks.length })

/-- `ConversationChunker._chunk_natural_boundaries`. -/
def chunkNatural (target_size min_size : Nat) (text : List Char) : List Chunk :=
  let boundaries := findBoundaries text
  let split_points := selectSplitPoints target_size min_size (boundaries.map (·.1)).mergeSort text.length
  setTotals (buildNaturalChunks text boundaries split_points 0 0)

/-- The loop of `ConversationChunker._chunk_fixed_size`, with fuel for
`while start < len(text)` (the wrapper passes `len(text) + 1`, enough for
every terminating run: the source loops forever when `target_size = 0`
and the text is non-empty). -/
def chunkFixedGo (target_size : Nat) (text : List Char) : Nat → Nat → Nat → List Chunk
  | 0, _, _ => []
  | fuel + 1, start, idx =>
    if start < text.length then
      let e := min (start + target_size) text.length
      { text := slice text start e, start_char := start, end_char := e,
        chunk_index := idx, total_chunks := 0, boundary_reason := "fixed_size" } ::
        chunkFixedGo target_size text fuel e (idx + 1)
    else []

/-- `ConversationChunker._chunk_fixed_size`. -/
def chunkFixed (target_size : Nat) (text : List Char) : List Chunk :=
  setTotals (chunkFixedGo target_size text (text.length + 1) 0 0)

/-- One step of `re.split(r'(?<=[.!?])\s+', text)`: `sentSplit` consumes
the current piece (accumulated in reverse in `acc`); when the previous
character is `.`, `!` or `?` and the current one is whitespace, the piece
is closed and `skipWs` consumes the rest of the whitespace run. A
delimiter at the very end of the text yields a trailing empty piece,
exactly as `re.split` does. -/
def sentSplitGo : Bool → List Char → List Char → List (List Char)
  | false, [], acc => [acc.reverse]
  | false, c :: rest, acc =>
    if pySpace c && (acc.head?.elim false (fun p => p = '.' || p = '!' || p = '?')) then
      acc.reverse :: sentSplitGo true rest []
    else
      sentSplitGo false rest (c :: acc)
  | true, [], _ => [[]]
  | true, c :: rest, _ =>
    if pySpace c then sentSplitGo true rest []
    else sentSplitGo false rest [c]

/-- `re.split(r'(?<=[.!?])\s+', text)`. -/
def splitSentences (text : List Char) : List (List Char) :=
  sentSplitGo false text []

/-- The accumulation loop of `ConversationChunker._chunk_sentences`:
close the current chunk once the next sentence would push the accumulated
size past `target_size` and at least `min_size` has accumulated; the
chunk text re-joins the accumulated sentences with single spaces. A
trailing partial chunk is always flushed. -/
def chunkSentencesGo (target_size min_size : Nat) :
    List (List Char) → List (List Char) → Nat → Nat → Nat → List Chunk
  | [], current_chunk, _, start_pos, idx =>
    if current_chunk.isEmpty then []
    else
      let chunk_text := (current_chunk.intersperse " ".data).flatten
      [{ text := chunk_text, start_char := start_pos,
         end_char := start_pos + chunk_text.length, chunk_index := idx,
         total_chunks := 0, boundary_reason := "end_of_conversation" }]
  | s :: rest, current_chunk, current_size, start_pos, idx =>
    if current_size + s.length > target_size && current_size ≥ min_size then
      let chunk_text := (current_chunk.intersperse " ".data).flatten
      { text := chunk_text, start_char := start_pos,
        end_char := start_pos + chunk_text.length, chunk_index := idx,
        total_chunks := 0, boundary_reason := "sentence_boundary" } ::
        chunkSentencesGo target_size min_size rest [s] s.length
          (start_pos + chunk_text.length + 1) (idx + 1)
    else
      chunkSentencesGo target_size min_size rest (current_chunk ++ [s])
        (current_size + s.length) start_pos idx

/-- `ConversationChunker._chunk_sentences`. -/
def chunkSentences (target_size min_size : Nat) (text : List Char) : List Chunk :=
  setTotals (chunkSentencesGo target_size min_size (splitSentences text) [] 0 0 0)

/-- `ConversationChunker.chunk(text, strategy)`: single chunk when the
text fits the target size, otherwise dispatch on the strategy; unknown
strategies raise `ValueError`. -/
def chunk (target_size min_size : Nat) (text : List Char) (strategy : String) :
    Except String (List Chunk) :=
  if text.length ≤ target_size then
    .ok [{ text := text, start_char := 0, end_char := text.length,
           chunk_index := 0, total_chunks := 1,
           boundary_reason := "no_chunking_needed" }]
  else if strategy = "natural" then .ok (chunkNatural target_size min_size text)
  else if strategy = "fixed" then .ok (chunkFixed target_size text)
  else if strategy = "sentences" then .ok (chunkSentences target_size min_size text)
  else .error ("Unknown chunking strategy: " ++ strategy)

/-- The chunk-sequence guarantee of the spec, relative to a source text:
the offsets chain from `pos` to the end of the text (contiguity and
non-overlap), every chunk's text is the corresponding slice, and hence
the concatenation reproduces `text.drop pos`. -/
def coversFrom (text : List Char) (pos : Nat) : List Chunk → Bool
  | [] => pos = text.length
  | c :: rest =>
    c.start_char = pos && pos ≤ c.end_char && c.end_char ≤ text.length &&
    c.text = slice text c.start_char c.end_char && coversFrom text c.end_char rest

/-- The chunk list `chunk` returns on a non-error run (empty on the
unknown-strategy error, which the theorems below rule out). -/
def chunkOk (target_size min_size : Nat) (text : List Char) (strategy : String) : List Chunk :=
  match chunk target_size min_size text strategy with
  | .ok cs => cs
  | .error _ => []

end Samantha.Chunker

namespace Samantha

/-- `conversation_analyzer.AnalysisResult`: five ordered string sequences
plus an optional narrative summary. -/
structure AnalysisResult where
  patterns : List String := []
  decisions : List String := []
  todos : List String := []
  preferences : List String := []
  learnings : List String := []
  summary : Option String := none
deriving Repr, DecidableEq

/-- Python truthiness of `self.summary` (`None` and `""` are falsy). -/
def summaryTruthy (r : AnalysisResult) : Bool :=
  match r.summary with
  | none => false
  | some s => s ≠ ""

/-- Python `"\n".join(lines)`. -/
def joinLines : List String → String
  | [] => ""
  | [a] => a
  | a :: rest => a ++ "\n" ++ joinLines rest

/-- `AnalysisResult.to_context_summary`: header, then (when present)
summary line, top 3 decisions, top 3 patterns, top 3 todos, joined by
newlines. -/
def toContextSummary (r : AnalysisResult) : String :=
  let lines : List String :=
    ["## Previous Context", ""]
    ++ (if summaryTruthy r then ["**Summary**: " ++ r.summary.getD "", ""] else [])
    ++ (if r.decisions.isEmpty then [] else
          ["**Key Decisions:**"] ++ (r.decisions.take 3).map (fun d => "- " ++ d) ++ [""])
    ++ (if r.patterns.isEmpty then [] else
          ["**Observed Patterns:**"] ++ (r.patterns.take 3).map (fun p => "- " ++ p) ++ [""])
    ++ (if r.todos.isEmpty then [] else
          ["**Pending Items:**"] ++ (r.todos.take 3).map (fun t => "- " ++ t) ++ [""])
  joinLines lines

/-- Normalisation used by the merger's `dedupe_list`:
`item.lower().strip()`. -/
def normItem (s : String) : String := pyStrip (pyLower s)

/-- The loop of `dedupe_list` in `subconscious_worker._merge_chunk_results`,
with the `seen` set of normalised keys made explicit. -/
def dedupeGo (seen : List String) : List String → List String
  | [] => []
  | item :: rest =>
    if normItem item ∈ seen then dedupeGo seen rest
    else item :: dedupeGo (normItem item :: seen) rest

/-- `dedupe_list(items)`: drop items whose normalised form was already
seen, keeping the first occurrence's original casing. -/
def dedupeList (items : List String) : List String :=
  dedupeGo [] items

/-- The summary-collection step of `_merge_chunk_results`: per-chunk
summaries (when truthy) are stripped, truncated to 500 characters
(497 + `"..."`), and labelled with their 1-based chunk number. -/
def mergeSummaries (rs : List AnalysisResult) : List String :=
  (List.enumFrom 1 rs).filterMap (fun p =>
    if summaryTruthy p.2 then
      let summary_text := pyStrip (p.2.summary.getD "")
      let summary_text :=
        if 500 < summary_text.length then
          String.mk (summary_text.data.take 497) ++ "..." else summary_text
      some ("**Chunk " ++ toString p.1 ++ "**: " ++ summary_text)
    else none)

/-- `subconscious_worker._merge_chunk_results`: zero results give an empty
result, one result is returned unmodified, otherwise the five category
sequences are concatenated across results and deduplicated, and summaries
are labelled and joined with blank lines. -/
def mergeChunkResults (chunk_results : List AnalysisResult) : AnalysisResult :=
  match chunk_results with
  | [] => {}
  | [r] => r
  | rs =>
    let summaries := mergeSummaries rs
    { patterns := dedupeList (rs.flatMap (·.patterns)),
      decisions := dedupeList (rs.flatMap (·.decisions)),
      todos := dedupeList (rs.flatMap (·.todos)),
      preferences := dedupeList (rs.flatMap (·.preferences)),
      learnings := dedupeList (rs.flatMap (·.learnings)),
      summary := if summaries.isEmpty then none
                 else some (String.intercalate "\n\n" summaries) }

/-- What the spec means by deduplicating a concatenated category sequence:
the merged sequence is a subsequence of the concatenation (first-seen
order, original casing), no two survivors share a normalised form, every
input item is represented by a survivor with the same normalised form,
and every survivor is the first occurrence of its normalised form. -/
def DedupedFrom (cat merged : List String) : Prop :=
  merged.Sublist cat
  ∧ merged.Pairwise (fun a b => normItem a ≠ normItem b)
  ∧ (∀ x ∈ cat, ∃ y ∈ merged, normItem y = normItem x)
  ∧ (∀ y ∈ merged, ∃ pre suf, cat = pre ++ y :: suf ∧ ∀ z ∈ pre, normItem z ≠ normItem y)

end Samantha

namespace Samantha.Store

/-- A JSON scalar stored in a status or manifest document. -/
inductive Val where
  | str (s : String)
  | nat (n : Nat)
  | bool (b : Bool)
deriving Repr, DecidableEq

/-- A JSON object in insertion order (a Python dict with string keys). -/
abbrev Doc := List (String × Val)

/-- Write into an association list with Python dict assignment semantics
(`d[k] = v`, or overwriting a file in a directory): replace in place if
the key exists, else append at the end. -/
def aset {κ α : Type} [DecidableEq κ] : List (κ × α) → κ → α → List (κ × α)
  | [], k, v => [(k, v)]
  | p :: rest, k, v => if p.1 = k then (k, v) :: rest else p :: aset rest k v

/-- Association list lookup (`d.get(k)` / `d[k]`). -/
def aget {κ α : Type} [DecidableEq κ] (m : List (κ × α)) (k : κ) : Option α :=
  (m.find? (fun p => p.1 = k)).map (·.2)

/-- Python `d[k] = v` on a document. -/
abbrev dset (d : Doc) (k : String) (v : Val) : Doc := aset d k v

/-- Python `d.get(k)` / `d[k]` on a document. -/
abbrev dget (d : Doc) (k : String) : Option Val := aget d k

/-- Python `d.update(u)`: set every key of `u` in order. -/
def dupdate (d u : Doc) : Doc :=
  u.foldl (fun d p => dset d p.1 p.2) d

/-- Python `d.get('attempts', 0)` for the attempts counter (always stored
as an integer by every writer in the source). -/
def dgetNat (d : Doc) (k : String) : Nat :=
  match dget d k with
  | some (.nat n) => n
  | _ => 0

/-- A chunk manifest keyed by chunk number, in insertion order. The
source keys entries by `str(chunk_num)`; `Nat` keys model that via the
`int(chunk_id)`/`str(chunk_num)` bijection. -/
abbrev ChunkMap := List (Nat × Doc)

/-- Lookup in a map keyed by chunk number
(`manifest['chunks'][str(n)]`, or a file in a per-chunk directory). -/
abbrev cget {α : Type} (m : List (Nat × α)) (n : Nat) : Option α := aget m n

/-- Write to a map keyed by chunk number, with Python dict assignment
semantics (overwriting files behaves the same way). -/
abbrev cset {α : Type} (m : List (Nat × α)) (n : Nat) (d : α) : List (Nat × α) := aset m n d

/-- `session_workspace` manifest document
`{session_id, total_chunks, created_at, chunks}`. -/
structure Manifest where
  session_id : String
  total_chunks : Nat
  created_at : String
  chunks : ChunkMap
deriving DecidableEq, Repr

/-- A session workspace's persistent state: the status document, the
chunk manifest, the parsed chunk-input files (keyed by chunk number) and
the append-only processing log. The raw-analysis and memory content
areas are not consulted by any claim settled here. -/
structure WS where
  session_id : String
  statusDoc : Option Doc
  manifest : Option Manifest
  parsed : List (Nat × String)
  log : List String
deriving DecidableEq, Repr

/-- `SessionWorkspace.update_status`: overwrite the status document with
`{status, updated_at, session_id}` merged with the caller's metadata. -/
def updateStatus (ws : WS) (status : String) (now : String) (metadata : Doc) : WS :=
  let status_data : Doc :=
    [("status", .str status), ("updated_at", .str now), ("session_id", .str ws.session_id)]
  { ws with statusDoc := some (dupdate status_data metadata) }

/-- `SessionWorkspace.get_status`: synthetic `unknown` status when the
document does not exist. -/
def getStatus (ws : WS) : Doc :=
  match ws.statusDoc with
  | none => [("status", .str "unknown"), ("session_id", .str ws.session_id)]
  | some d => d

/-- `SessionWorkspace.init_chunk_manifest`: all chunks `1..total` start
`pending` with `attempts = 0`. -/
def initChunkManifest (ws : WS) (total_chunks : Nat) (now : String) : WS :=
  let entries := (List.range total_chunks).map (fun i =>
    (i + 1, [("status", .str "pending"), ("attempts", .nat 0), ("created_at", .str now)]))
  { ws with manifest := some (
    { session_id := ws.session_id, total_chunks := total_chunks,
      created_at := now, chunks := entries } : Manifest) }

/-- `SessionWorkspace.update_chunk_status`: silently a no-op when the
manifest file does not exist; otherwise read-modify-write, creating a
missing entry as `{attempts: 0}` and merging `status`, `updated_at` and
the caller's metadata. -/
def updateChunkStatus (ws : WS) (chunk_num : Nat) (status : String)
    (now : String) (metadata : Doc) : WS :=
  match ws.manifest with
  | none => ws
  | some m =>
    let entry := (cget m.chunks chunk_num).getD [("attempts", .nat 0)]
    let entry := dupdate entry [("status", .str status), ("updated_at", .str now)]
    let entry := dupdate entry metadata
    { ws with manifest := some ({ m with chunks := cset m.chunks chunk_num entry }) }

/-- `SessionWorkspace.get_chunk_manifest`: a manifest with an empty chunk
map when the file does not exist (the source returns `{'chunks': {}}`). -/
def getChunkManifest (ws : WS) : Manifest :=
  match ws.manifest with
  | none => { session_id := "", total_chunks := 0, created_at := "", chunks := [] }
  | some m => m

/-- `SessionWorkspace.log`: append one timestamped line. -/
def appendLog (ws : WS) (now message : String) : WS :=
  { ws with log := ws.log ++ [now ++ " " ++ message] }

/-- `SessionWorkspace.mark_complete`. -/
def markComplete (ws : WS) (now : String) (metadata : Doc) : WS :=
  updateStatus ws "complete" now (dupdate [("completed_at", .str now)] metadata)

/-- `SessionWorkspace.mark_failed`. -/
def markFailed (ws : WS) (now error : String) : WS :=
  updateStatus ws "failed" now [("error", .str error), ("failed_at", .str now)]

end Samantha.Store

namespace Samantha.Worker

open Samantha.Store

/-- The external analyzer collaborator: `analyze` either returns an
`AnalysisResult` or raises with an error message. Indexed by chunk number
(the worker passes chunk `n`'s persisted input file). -/
abbrev Analyzer := Nat → Except String AnalysisResult

/-- The fixed delimiter separating condensed context from chunk text. -/
def contextDelimiter : String := "\n\n---\n\n"

/-- Python truthiness of `accumulated_context` and the context-prepending
step of `_analyze_with_chunking`. -/
def buildInput (accumulated_context chunk_text : String) : String :=
  if accumulated_context ≠ "" then
    accumulated_context ++ contextDelimiter ++ chunk_text
  else chunk_text

/-- The per-chunk loop of `subconscious_worker._analyze_with_chunking`
(with a workspace present, as in the session-isolated pipeline): mark the
manifest entry `processing`, persist the analyzer input, run the
analyzer; on success record `complete` with counts and (before the last
chunk) replace the accumulated context with the result's condensed
summary; on failure record `failed` with the incremented attempt count
and continue with the remaining chunks. Returns the final workspace and
the ordered successful `(chunk_num, result)` pairs; the inputs each
chunk was analyzed with are recoverable from `ws.parsed`. -/
def chunkLoop (analyzer : Analyzer) (now : String) (total : Nat) :
    List String → Nat → String → WS → WS × List (Nat × AnalysisResult)
  | [], _, _, ws => (ws, [])
  | t :: rest, chunk_num, accumulated_context, ws =>
    let ws := updateChunkStatus ws chunk_num "processing" now [("started_at", .str now)]
    let input := buildInput accumulated_context t
    let ws := { ws with parsed := cset ws.parsed chunk_num input }
    match analyzer chunk_num with
    | .ok result =>
      let ws := updateChunkStatus ws chunk_num "complete" now
        [("completed_at", .str now),
         ("patterns_count", .nat result.patterns.length),
         ("decisions_count", .nat result.decisions.length)]
      let accumulated_context :=
        if chunk_num < total then toContextSummary result else accumulated_context
      let r := chunkLoop analyzer now total rest (chunk_num + 1) accumulated_context ws
      (r.1, (chunk_num, result) :: r.2)
    | .error e =>
      let attempts := dgetNat ((cget (getChunkManifest ws).chunks chunk_num).getD []) "attempts"
      let ws := updateChunkStatus ws chunk_num "failed" now
        [("failed_at", .str now), ("error", .str e), ("attempts", .nat (attempts + 1))]
      chunkLoop analyzer now total rest (chunk_num + 1) accumulated_context ws

/-- `_analyze_with_chunking` over already-computed chunk texts: initialise
the manifest with one `pending` entry per chunk, run the chunk loop from
chunk 1 with empty context, and merge the successful results. -/
def analyzeWithChunking (analyzer : Analyzer) (now : String)
    (chunk_texts : List String) (ws : WS) : WS × List (Nat × AnalysisResult) × AnalysisResult :=
  let ws := initChunkManifest ws chunk_texts.length now
  let r := chunkLoop analyzer now chunk_texts.length chunk_texts 1 "" ws
  (r.1, r.2, mergeChunkResults (r.2.map (·.2)))

/-- The workspace state after a full `_analyze_with_chunking` run. -/
def workerFinal (analyzer : Analyzer) (now : String) (chunk_texts : List String)
    (ws : WS) : WS :=
  (analyzeWithChunking analyzer now chunk_texts ws).1

/-- The ordered successful `(chunk_num, result)` pairs of a full run —
the list handed to the result merger. -/
def workerResults (analyzer : Analyzer) (now : String) (chunk_texts : List String)
    (ws : WS) : List (Nat × AnalysisResult) :=
  (analyzeWithChunking analyzer now chunk_texts ws).2.1

/-- The merged result of a full run. -/
def workerMerged (analyzer : Analyzer) (now : String) (chunk_texts : List String)
    (ws : WS) : AnalysisResult :=
  (analyzeWithChunking analyzer now chunk_texts ws).2.2

/-- A concrete analyzer for worked examples: chunk 2 fails, every other
chunk succeeds with a distinctive result. -/
def exampleAnalyzer : Analyzer := fun n =>
  if n = 2 then .error "boom"
  else .ok { patterns := ["P" ++ toString n], decisions := ["D" ++ toString n],
             summary := some ("S" ++ toString n) }

/-- The result `exampleAnalyzer` produces for chunk 1. -/
def exampleResult1 : AnalysisResult :=
  { patterns := ["P1"], decisions := ["D1"], summary := some "S1" }

/-- A fresh example workspace. -/
def exampleWS : WS := WS.mk "sess1" none none [] []

end Samantha.Worker

namespace Samantha.Retry

open Samantha.Store

/-- The retry filter of `chunk_retry.get_failed_chunks`: manifest entries
whose status is `failed` with fewer than 3 attempts. -/
def retryable (d : Doc) : Bool :=
  dget d "status" = some (.str "failed") && dgetNat d "attempts" < 3

/-- Stable insertion into a list sorted ascending by chunk number
(`failed.sort(key=lambda x: x[0])`). -/
def insertByNum (p : Nat × Doc) : List (Nat × Doc) → List (Nat × Doc)
  | [] => [p]
  | q :: qs => if q.1 ≤ p.1 then q :: insertByNum p qs else p :: q :: qs

/-- Stable sort ascending by chunk number. -/
def sortByNum : List (Nat × Doc) → List (Nat × Doc)
  | [] => []
  | p :: ps => insertByNum p (sortByNum ps)

/-- `chunk_retry.get_failed_chunks` over a chunk map: the `failed`
entries with `attempts < 3`, sorted ascending by chunk number. -/
def failedChunksOf (chunks : ChunkMap) : List (Nat × Doc) :=
  sortByNum (chunks.filter (fun p => retryable p.2))

/-- `get_failed_chunks(workspace)`. -/
def getFailedChunks (ws : WS) : List (Nat × Doc) :=
  failedChunksOf (getChunkManifest ws).chunks

/-- The backoff computation of `chunk_retry.retry_session` (lines
164-172), as a pure function of the prior attempt count: the upcoming
attempt is `attempts + 1`, and a wait of `min(2 ** attempt, 60)` happens
only when that is not the first attempt. -/
def backoffWait (attempts : Nat) : Nat :=
  let attempt := attempts + 1
  if 1 < attempt then min (2 ^ attempt) 60 else 0

/-- `chunk_retry.retry_chunk`: skip (leaving the manifest alone) when the
persisted chunk input is missing; otherwise mark `processing` with the
incremented attempt count taken from the manifest snapshot `chunk_data`,
re-run the analyzer on the persisted input, and record `complete` or
`failed` exactly as the worker does. Returns the workspace and whether
the retry succeeded. -/
def retryChunk (analyzer : Samantha.Worker.Analyzer) (now : String)
    (ws : WS) (chunk_num : Nat) (chunk_data : Doc) : WS × Bool :=
  let ws := appendLog ws now ("[RETRY] Attempting chunk " ++ toString chunk_num ++
    " (attempt " ++ toString (dgetNat chunk_data "attempts" + 1) ++ ")")
  if (ws.parsed.find? (fun p => p.1 = chunk_num)).isNone then
    (appendLog ws now "[RETRY] ERROR: Chunk file not found", false)
  else
    let ws := updateChunkStatus ws chunk_num "processing" now
      [("started_at", .str now), ("attempts", .nat (dgetNat chunk_data "attempts" + 1))]
    match analyzer chunk_num with
    | .ok result =>
      let ws := appendLog ws now ("[RETRY] Chunk " ++ toString chunk_num ++ " complete")
      let ws := updateChunkStatus ws chunk_num "complete" now
        [("completed_at", .str now),
         ("patterns_count", .nat result.patterns.length),
         ("decisions_count", .nat result.decisions.length),
         ("retried", .bool true)]
      (ws, true)
    | .error e =>
      let ws := appendLog ws now ("[RETRY] ERROR: Chunk " ++ toString chunk_num ++ " failed again")
      let ws := updateChunkStatus ws chunk_num "failed" now
        [("failed_at", .str now), ("error", .str e),
         ("attempts", .nat (dgetNat chunk_data "attempts" + 1))]
      (ws, false)

/-- The retry loop of `chunk_retry.retry_session`: for each retryable
chunk, wait `backoffWait` time units (recorded in the returned trace; the
source sleeps), then retry it. Returns the workspace, the recovered-chunk
count and the list of waits performed. -/
def retryLoop (analyzer : Samantha.Worker.Analyzer) (now : String) :
    List (Nat × Doc) → WS → WS × Nat × List Nat
  | [], ws => (ws, 0, [])
  | (chunk_num, chunk_data) :: rest, ws =>
    let wait := backoffWait (dgetNat chunk_data "attempts")
    let ws := if wait ≠ 0 then
        appendLog ws now ("[RETRY] Waiting " ++ toString wait ++ "s before chunk " ++
          toString chunk_num)
      else ws
    let r := retryChunk analyzer now ws chunk_num chunk_data
    let rest_r := retryLoop analyzer now rest r.1
    (rest_r.1, (if r.2 then rest_r.2.1 + 1 else rest_r.2.1), wait :: rest_r.2.2)

/-- `chunk_retry.retry_session` (after its existence checks, which touch
nothing): log, collect the retryable chunks, retry each with backoff, and
log a summary. The session status document is read nowhere and written
nowhere — completion is left to the merge stage. -/
def retrySession (analyzer : Samantha.Worker.Analyzer) (now : String) (ws : WS) :
    WS × Nat × List Nat :=
  let ws := appendLog ws now ("[RETRY] Starting retry process for session " ++ ws.session_id)
  let failed_chunks := getFailedChunks ws
  if failed_chunks.isEmpty then
    (appendLog ws now "[RETRY] No failed chunks to retry", 0, [])
  else
    let ws := appendLog ws now ("[RETRY] Found " ++ toString failed_chunks.length ++
      " failed chunks to retry")
    let r := retryLoop analyzer now failed_chunks ws
    let ws := r.1
    let count := r.2.1
    let waits := r.2.2
    let ws := appendLog ws now ("[RETRY] Complete: " ++ toString count ++ "/" ++
      toString failed_chunks.length ++ " chunks recovered")
    let all_complete := ((getChunkManifest ws).chunks.all
      (fun p => dget p.2 "status" = some (.str "complete")))
    let ws := if all_complete then appendLog ws now "[RETRY] All chunks now complete" else ws
    (ws, count, waits)

end Samantha.Retry

namespace Samantha.Merge

open Samantha.Store

/-- A session's on-disk workspace as the merge process sees it: the
status document, the session guidance file and the memory files
(name to content). The remaining contents travel with the directory
unchanged and are not consulted by the merge process. -/
structure SessionDir where
  statusDoc : Option Doc
  guidance : Option String
  memories : List (String × String)
deriving DecidableEq, Repr

/-- The filesystem areas `merge_sessions.py` touches: the active session
workspaces (`sessions/<id>/`), the archive (`processed/<id>/`), the
shared short-term memory store and the main guidance document. All maps
are keyed association lists in directory order. -/
structure FS where
  sessions : List (String × SessionDir)
  processed : List (String × SessionDir)
  shortTermMemory : List (String × String)
  mainGuidance : Option String
deriving DecidableEq, Repr

/-- String-keyed map write (a file write: overwrite or create). -/
abbrev fset {α : Type} (m : List (String × α)) (k : String) (v : α) : List (String × α) :=
  Samantha.Store.aset m k v

/-- String-keyed map lookup. -/
abbrev fget {α : Type} (m : List (String × α)) (k : String) : Option α :=
  Samantha.Store.aget m k

/-- The status string a workspace reports: `get_status()['status']`
(the synthetic `unknown` when there is no document; every status document
the source writes carries a `status` string). -/
def statusStr (dir : SessionDir) : String :=
  match dir.statusDoc with
  | none => "unknown"
  | some d =>
    match dget d "status" with
    | some (.str s) => s
    | _ => ""

/-- `completed_at` of a status document, defaulting to the empty string
(`x[1].get('completed_at', '')`). -/
def completedAt (dir : SessionDir) : String :=
  match dir.statusDoc with
  | none => ""
  | some d =>
    match dget d "completed_at" with
    | some (.str s) => s
    | _ => ""

/-- `session_workspace.get_active_sessions`: the sessions whose status is
`processing` or `complete`, in directory order. -/
def getActiveSessions (fs : FS) : List (String × SessionDir) :=
  fs.sessions.filter (fun p => statusStr p.2 = "processing" || statusStr p.2 = "complete")

/-- The completed-session selection of `merge_completed_sessions`. -/
def completedSessions (fs : FS) : List (String × SessionDir) :=
  (getActiveSessions fs).filter (fun p => statusStr p.2 = "complete")

/-- Stable insertion ascending by `completed_at`
(`sorted(sessions, key=lambda x: x[1].get('completed_at', ''))`). -/
def insertByCompleted (p : String × SessionDir) :
    List (String × SessionDir) → List (String × SessionDir)
  | [] => [p]
  | q :: qs =>
    if completedAt q.2 ≤ completedAt p.2 then q :: insertByCompleted p qs
    else p :: q :: qs

/-- Stable sort ascending by `completed_at`. -/
def sortByCompleted : List (String × SessionDir) → List (String × SessionDir)
  | [] => []
  | p :: ps => insertByCompleted p (sortByCompleted ps)

/-- Python `pat in line` for strings: substring containment. -/
def hasInfix (pat : List Char) : List Char → Bool
  | [] => pat.isEmpty
  | c :: rest => pat.isPrefixOf (c :: rest) || hasInfix pat rest

/-- The entry-extraction loop of `merge_guidance_files`: lines after a
`## Recent Sessions` line whose stripped form starts with `- **`. -/
def extractEntries (content : String) : List String :=
  (content.splitOn "\n").foldl
    (fun acc line =>
      if hasInfix "## Recent Sessions".toList line.toList then (acc.1, true)
      else if acc.2 && "- **".isPrefixOf (pyStrip line) then (acc.1 ++ [line], acc.2)
      else acc)
    (([] : List String), false)
  |>.1

/-- The default main guidance document created when none exists. -/
def defaultGuidance (now : String) : String :=
  "---\nlast_updated: " ++ now ++ "\n---\n\n# Subconscious Guidance\n\n" ++
  "Quick orientation from recent sessions. For detailed analysis, see session workspaces.\n\n" ++
  "## Recent Sessions\n\n"

/-- Find the line index right after the first `## Recent Sessions` line,
`-1` becoming `none` (`insert_index`). -/
def recentSessionsIndex (lines : List String) : Option Nat :=
  lines.findIdx? (fun line => hasInfix "## Recent Sessions".toList line.toList)

/-- `merge_sessions.merge_guidance_files`: collect the session guidance
entries ordered by completion timestamp, splice them right after the
`## Recent Sessions` marker of the main guidance document (created with a
default header when absent), and refresh the `last_updated:` stamp. -/
def mergeGuidanceFiles (fs : FS) (sessions : List (String × SessionDir)) (now : String) : FS :=
  let main_content := fs.mainGuidance.getD (defaultGuidance now)
  let session_entries := (sortByCompleted sessions).flatMap
    (fun p => match p.2.guidance with
      | none => []
      | some g => extractEntries g)
  let main_content :=
    if session_entries.isEmpty then main_content
    else
      let lines := main_content.splitOn "\n"
      match recentSessionsIndex lines with
      | none => main_content
      | some i =>
        String.intercalate "\n"
          (lines.take (i + 1) ++ [""] ++ session_entries ++ lines.drop (i + 1))
  let main_content := main_content.replace "last_updated: " ("last_updated: " ++ now ++ " # ")
  { fs with mainGuidance := some main_content }

/-- `merge_sessions.move_memories`: copy each `*.md` memory file of the
workspace into the shared short-term store (`shutil.copy2` — the
workspace keeps its copy); a name collision is resolved by renaming to
`<stem>_<session_id>.md`. -/
def moveMemories (fs : FS) (session_id : String) (dir : SessionDir) : FS :=
  dir.memories.foldl
    (fun fs mem =>
      if mem.1.endsWith ".md" then
        let dest_name :=
          if (fget fs.shortTermMemory mem.1).isSome then
            String.mk (mem.1.data.take (mem.1.data.length - 3)) ++ "_" ++ session_id ++ ".md"
          else mem.1
        { fs with shortTermMemory := fset fs.shortTermMemory dest_name mem.2 }
      else fs)
    fs

/-- `merge_sessions.archive_session`: `shutil.move` of the whole session
workspace into `processed/<id>` — the active workspace ceases to exist. -/
def archiveSession (fs : FS) (session_id : String) (dir : SessionDir) : FS :=
  { fs with
    sessions := fs.sessions.filter (fun p => p.1 ≠ session_id),
    processed := fset fs.processed session_id dir }

/-- The per-session pass of `merge_completed_sessions`: move the memories
out, then archive the workspace. -/
def mergeOneSession (fs : FS) (p : String × SessionDir) : FS :=
  archiveSession (moveMemories fs p.1 p.2) p.1 p.2

/-- `merge_sessions.merge_completed_sessions`: select the sessions at
status `complete`; do nothing when there are none or in dry-run mode;
otherwise merge guidance, then move memories and archive each completed
session. -/
def mergeCompletedSessions (fs : FS) (dry_run : Bool) (now : String) : FS :=
  let completed := completedSessions fs
  if completed.isEmpty then fs
  else if dry_run then fs
  else
    let fs := mergeGuidanceFiles fs completed now
    completed.foldl mergeOneSession fs

/-- A completed example session directory with guidance and memories. -/
def exampleDirA : SessionDir :=
  SessionDir.mk
    (some [("status", .str "complete"), ("updated_at", .str "T"),
           ("session_id", .str "A1"), ("completed_at", .str "2026-01-02")])
    (some "## Recent Sessions

- **A1**: did stuff
")
    [("m1.md", "mem1"), ("dup.md", "memA")]

/-- An example session directory still processing. -/
def exampleDirB : SessionDir :=
  SessionDir.mk
    (some [("status", .str "processing"), ("updated_at", .str "T"),
           ("session_id", .str "B2")]) none []

/-- An example filesystem: one completed and one processing session, a
pre-existing shared memory file and a main guidance document. -/
def exampleFS : FS :=
  FS.mk [("A1", exampleDirA), ("B2", exampleDirB)] [] [("dup.md", "existing")]
    (some "---
last_updated: X
---

## Recent Sessions

- **old**: entry
")

end Samantha.Merge

/-! ## Shared lemmas: workspace frame properties -/

namespace Samantha.Store

theorem statusDoc_appendLog (ws : WS) (now m : String) :
    (appendLog ws now m).statusDoc = ws.statusDoc := rfl

theorem statusDoc_updateChunkStatus (ws : WS) (n : Nat) (s now : String) (meta : Doc) :
    (updateChunkStatus ws n s now meta).statusDoc = ws.statusDoc := by
  cases h : ws.manifest <;> simp [updateChunkStatus, h]

theorem manifest_appendLog (ws : WS) (now m : String) :
    (appendLog ws now m).manifest = ws.manifest := rfl

end Samantha.Store

namespace Samantha.Retry

open Samantha.Store

theorem statusDoc_retryChunk (analyzer : Samantha.Worker.Analyzer) (now : String)
    (ws : WS) (n : Nat) (d : Doc) :
    (retryChunk analyzer now ws n d).1.statusDoc = ws.statusDoc := by
  unfold retryChunk
  split <;> dsimp only <;> split <;>
    simp [statusDoc_appendLog, statusDoc_updateChunkStatus]

theorem statusDoc_retryLoop (analyzer : Samantha.Worker.Analyzer) (now : String)
    (l : List (Nat × Doc)) (ws : WS) :
    (retryLoop analyzer now l ws).1.statusDoc = ws.statusDoc := by
  induction l generalizing ws with
  | nil => rfl
  | cons p rest ih =>
    unfold retryLoop
    rw [ih]
    rw [statusDoc_retryChunk]
    split <;> simp [statusDoc_appendLog]

end Samantha.Retry

/-! ## Claims C7, C10, C2 -/

/-- C7: a retry run never touches the session status document: after
`retry_session` finishes, the status document is exactly what it was
before the run — in particular it is never flipped to `complete`, even
when every manifest entry ends up complete; completion is left to the
separate finalize/merge stage. -/
theorem C7_retry_leaves_session_status_unchanged
    (analyzer : Samantha.Worker.Analyzer) (now : String) (ws : Samantha.Store.WS) :
    (Samantha.Retry.retrySession analyzer now ws).1.statusDoc = ws.statusDoc := by
  unfold Samantha.Retry.retrySession
  dsimp only
  split
  · simp [Samantha.Store.statusDoc_appendLog]
  · split <;>
      simp [Samantha.Store.statusDoc_appendLog, Samantha.Retry.statusDoc_retryLoop]

/-- C10: when no manifest document exists for the session,
`update_chunk_status` is a silent no-op for every chunk number, status
and metadata: it returns without error, creates no manifest, and writes
nothing — the whole workspace state is untouched. -/
theorem C10_update_chunk_status_noop_without_manifest
    (ws : Samantha.Store.WS) (chunk_num : Nat) (status now : String)
    (metadata : Samantha.Store.Doc) (h : ws.manifest = none) :
    Samantha.Store.updateChunkStatus ws chunk_num status now metadata = ws := by
  unfold Samantha.Store.updateChunkStatus
  rw [h]

theorem C10_update_chunk_status_noop_witness :
    Samantha.Store.updateChunkStatus
      (Samantha.Store.WS.mk "s1" none none [] []) 2 "complete" "T"
      [("completed_at", Samantha.Store.Val.str "T")] =
    Samantha.Store.WS.mk "s1" none none [] [] :=
  C10_update_chunk_status_noop_without_manifest
    (Samantha.Store.WS.mk "s1" none none [] []) 2 "complete" "T"
    [("completed_at", Samantha.Store.Val.str "T")] rfl

/-- C2 counterexample: the claim says a chunk with one prior attempt
waits `min(2^1, 60) = 2` time units, but `retry_session` computes
`attempt = attempts + 1` and waits `min(2 ** attempt, 60)`, which is 4
for one prior attempt. -/
theorem C2_backoff_counterexample :
    ¬ (Samantha.Retry.backoffWait 1 = min (2 ^ 1) 60) := by decide

/-- C2 (amended): the retry loop waits `backoffWait attempts` before
each chunk, where `backoffWait` waits nothing on a chunk's first attempt
(`attempts = 0`) and `min(2^(attempts+1), 60)` otherwise; for prior
attempt counts 1..7 that is 4, 8, 16, 32, 60, 60, 60. -/
theorem C2_backoff_amended :
    (∀ (analyzer : Samantha.Worker.Analyzer) (now : String)
       (l : List (Nat × Samantha.Store.Doc)) (ws : Samantha.Store.WS),
       (Samantha.Retry.retryLoop analyzer now l ws).2.2 =
         l.map (fun p => Samantha.Retry.backoffWait (Samantha.Store.dgetNat p.2 "attempts")))
    ∧ Samantha.Retry.backoffWait 0 = 0
    ∧ (∀ a : Nat, Samantha.Retry.backoffWait (a + 1) = min (2 ^ (a + 2)) 60)
    ∧ [1, 2, 3, 4, 5, 6, 7].map Samantha.Retry.backoffWait = [4, 8, 16, 32, 60, 60, 60] := by
  refine ⟨?_, by decide, ?_, by decide⟩
  · intro analyzer now l ws
    induction l generalizing ws with
    | nil => rfl
    | cons p rest ih => simp [Samantha.Retry.retryLoop, ih]
  · intro a
    simp [Samantha.Retry.backoffWait]

/-! ## Claim C5: retryable-chunk selection -/

namespace Samantha.Retry

open Samantha.Store

theorem insertByNum_perm (p : Nat × Doc) (l : List (Nat × Doc)) :
    List.Perm (insertByNum p l) (p :: l) := by
  induction l with
  | nil => simp [insertByNum]
  | cons q qs ih =>
    by_cases h : q.1 ≤ p.1
    · simp only [insertByNum, h, if_pos]
      exact (ih.cons q).trans (List.Perm.swap p q qs)
    · simp [insertByNum, h]

theorem sortByNum_perm (l : List (Nat × Doc)) : List.Perm (sortByNum l) l := by
  induction l with
  | nil => simp [sortByNum]
  | cons p ps ih => exact (insertByNum_perm p (sortByNum ps)).trans (ih.cons p)

theorem insertByNum_sorted (p : Nat × Doc) (l : List (Nat × Doc))
    (h : l.Pairwise (fun a b => a.1 ≤ b.1)) :
    (insertByNum p l).Pairwise (fun a b => a.1 ≤ b.1) := by
  induction l with
  | nil => simp [insertByNum]
  | cons q qs ih =>
    rcases h with _ | ⟨hq, hqs⟩
    by_cases hle : q.1 ≤ p.1
    · simp only [insertByNum, hle, if_pos]
      refine List.Pairwise.cons ?_ (ih hqs)
      intro x hx
      rcases List.mem_cons.mp ((insertByNum_perm p qs).mem_iff.mp hx) with h | h
      · exact h ▸ hle
      · exact hq x h
    · simp only [insertByNum, hle, if_neg]
      refine List.Pairwise.cons ?_ (List.Pairwise.cons hq hqs)
      intro x hx
      rcases List.mem_cons.mp hx with h | h
      · exact h ▸ Nat.le_of_not_le hle
      · exact Nat.le_trans (Nat.le_of_not_le hle) (hq x h)

theorem sortByNum_sorted (l : List (Nat × Doc)) :
    (sortByNum l).Pairwise (fun a b => a.1 ≤ b.1) := by
  induction l with
  | nil => simp [sortByNum]
  | cons p ps ih => exact insertByNum_sorted p (sortByNum ps) ih

theorem mem_failedChunksOf (chunks : ChunkMap) (n : Nat) (d : Doc) :
    (n, d) ∈ failedChunksOf chunks ↔
      ((n, d) ∈ chunks ∧ dget d "status" = some (.str "failed") ∧ dgetNat d "attempts" < 3) := by
  unfold failedChunksOf
  rw [(sortByNum_perm _).mem_iff, List.mem_filter]
  simp [retryable, and_assoc]

end Samantha.Retry

/-- C5: `get_failed_chunks` (the `retryableChunks` of the spec, with the
max-attempt cap 3) returns exactly the manifest entries whose status is
`failed` with strictly fewer than 3 attempts, sorted ascending by chunk
number; an entry with 3 attempts is never returned. -/
theorem C5_retryable_chunks
    (chunks : Samantha.Store.ChunkMap) :
    (∀ n d, (n, d) ∈ Samantha.Retry.failedChunksOf chunks ↔
        ((n, d) ∈ chunks ∧
         Samantha.Store.dget d "status" = some (.str "failed") ∧
         Samantha.Store.dgetNat d "attempts" < 3))
    ∧ (Samantha.Retry.failedChunksOf chunks).Pairwise (fun a b => a.1 ≤ b.1)
    ∧ (∀ n d, (n, d) ∈ Samantha.Retry.failedChunksOf chunks →
        Samantha.Store.dgetNat d "attempts" ≠ 3) := by
  refine ⟨Samantha.Retry.mem_failedChunksOf chunks, Samantha.Retry.sortByNum_sorted _, ?_⟩
  intro n d hd
  have := ((Samantha.Retry.mem_failedChunksOf chunks n d).mp hd).2.2
  omega

/-! ## Claim C4: result merging -/

namespace Samantha

theorem dedupeGo_sublist (seen : List String) (l : List String) :
    (dedupeGo seen l).Sublist l := by
  induction l generalizing seen with
  | nil => simp [dedupeGo]
  | cons item rest ih =>
    by_cases h : normItem item ∈ seen
    · simp only [dedupeGo, h, if_pos]
      exact (ih seen).cons item
    · simp only [dedupeGo, h, if_neg, not_false_iff]
      exact (ih _).cons₂ item

theorem mem_dedupeGo_not_seen (seen : List String) (l : List String) (x : String)
    (hx : x ∈ dedupeGo seen l) : normItem x ∉ seen := by
  induction l generalizing seen with
  | nil => simp [dedupeGo] at hx
  | cons item rest ih =>
    by_cases h : normItem item ∈ seen
    · rw [dedupeGo, if_pos h] at hx
      exact ih seen hx
    · rw [dedupeGo, if_neg h] at hx
      rcases List.mem_cons.mp hx with rfl | hx'
      · exact h
      · intro hseen
        exact ih _ hx' (List.mem_cons_of_mem _ hseen)

theorem dedupeGo_pairwise (seen : List String) (l : List String) :
    (dedupeGo seen l).Pairwise (fun a b => normItem a ≠ normItem b) := by
  induction l generalizing seen with
  | nil => simp [dedupeGo]
  | cons item rest ih =>
    by_cases h : normItem item ∈ seen
    · rw [dedupeGo, if_pos h]; exact ih seen
    · rw [dedupeGo, if_neg h]
      refine List.Pairwise.cons ?_ (ih _)
      intro y hy
      have := mem_dedupeGo_not_seen _ _ _ hy
      intro hEq
      exact this (hEq ▸ List.mem_cons_self _ _)

theorem dedupeGo_covers (seen : List String) (l : List String) (x : String)
    (hx : x ∈ l) :
    normItem x ∈ seen ∨ ∃ y ∈ dedupeGo seen l, normItem y = normItem x := by
  induction l generalizing seen with
  | nil => simp at hx
  | cons item rest ih =>
    by_cases h : normItem item ∈ seen
    · rw [dedupeGo, if_pos h]
      rcases List.mem_cons.mp hx with rfl | hx'
      · exact Or.inl h
      · exact ih seen hx'
    · rw [dedupeGo, if_neg h]
      rcases List.mem_cons.mp hx with rfl | hx'
      · exact Or.inr ⟨x, List.mem_cons_self _ _, rfl⟩
      · rcases ih (normItem item :: seen) hx' with hseen | ⟨y, hy, hyx⟩
        · rcases List.mem_cons.mp hseen with hEq | hseen'
          · exact Or.inr ⟨item, List.mem_cons_self _ _, hEq.symm⟩
          · exact Or.inl hseen'
        · exact Or.inr ⟨y, List.mem_cons_of_mem _ hy, hyx⟩

theorem dedupeGo_first (seen : List String) (l : List String) (x : String)
    (hx : x ∈ dedupeGo seen l) :
    ∃ pre suf, l = pre ++ x :: suf ∧ ∀ z ∈ pre, normItem z ≠ normItem x := by
  induction l generalizing seen with
  | nil => simp [dedupeGo] at hx
  | cons item rest ih =>
    by_cases h : normItem item ∈ seen
    · rw [dedupeGo, if_pos h] at hx
      obtain ⟨pre, suf, hrest, hpre⟩ := ih seen hx
      refine ⟨item :: pre, suf, by simp [hrest], ?_⟩
      intro z hz
      rcases List.mem_cons.mp hz with rfl | hz'
      · intro hEq
        exact mem_dedupeGo_not_seen seen rest x hx (hEq ▸ h)
      · exact hpre z hz'
    · rw [dedupeGo, if_neg h] at hx
      rcases List.mem_cons.mp hx with rfl | hx'
      · exact ⟨[], rest, rfl, by simp⟩
      · obtain ⟨pre, suf, hrest, hpre⟩ := ih _ hx'
        refine ⟨item :: pre, suf, by simp [hrest], ?_⟩
        intro z hz
        rcases List.mem_cons.mp hz with rfl | hz'
        · intro hEq
          exact mem_dedupeGo_not_seen _ rest x hx' (hEq ▸ List.mem_cons_self _ _)
        · exact hpre z hz'

theorem dedupeList_deduped (items : List String) :
    DedupedFrom items (dedupeList items) := by
  refine ⟨dedupeGo_sublist [] items, dedupeGo_pairwise [] items, ?_, ?_⟩
  · intro x hx
    rcases dedupeGo_covers [] items x hx with h | h
    · simp at h
    · exact h
  · intro y hy
    exact dedupeGo_first [] items y hy

end Samantha

/-- C4: merging an ordered list of analysis results returns the empty
result for zero inputs and the single input unmodified for one input;
for two or more inputs each of the five category sequences is the
concatenation across results, deduplicated by case-insensitive
whitespace-trimmed equality keeping the first occurrence's original
casing (`DedupedFrom`); merging patterns `["Use X"]` with
`["use x ", "Use Y"]` yields `["Use X", "Use Y"]`. -/
theorem C4_merge_results :
    Samantha.mergeChunkResults [] = ({} : Samantha.AnalysisResult)
    ∧ (∀ r : Samantha.AnalysisResult, Samantha.mergeChunkResults [r] = r)
    ∧ (∀ (r1 r2 : Samantha.AnalysisResult) (rs : List Samantha.AnalysisResult),
        Samantha.DedupedFrom ((r1 :: r2 :: rs).flatMap (·.patterns))
          (Samantha.mergeChunkResults (r1 :: r2 :: rs)).patterns
        ∧ Samantha.DedupedFrom ((r1 :: r2 :: rs).flatMap (·.decisions))
            (Samantha.mergeChunkResults (r1 :: r2 :: rs)).decisions
        ∧ Samantha.DedupedFrom ((r1 :: r2 :: rs).flatMap (·.todos))
            (Samantha.mergeChunkResults (r1 :: r2 :: rs)).todos
        ∧ Samantha.DedupedFrom ((r1 :: r2 :: rs).flatMap (·.preferences))
            (Samantha.mergeChunkResults (r1 :: r2 :: rs)).preferences
        ∧ Samantha.DedupedFrom ((r1 :: r2 :: rs).flatMap (·.learnings))
            (Samantha.mergeChunkResults (r1 :: r2 :: rs)).learnings)
    ∧ (Samantha.mergeChunkResults
        [{ patterns := ["Use X"] }, { patterns := ["use x ", "Use Y"] }]).patterns
        = ["Use X", "Use Y"] := by
  refine ⟨rfl, fun r => rfl, ?_, by decide⟩
  intro r1 r2 rs
  exact ⟨Samantha.dedupeList_deduped _, Samantha.dedupeList_deduped _,
         Samantha.dedupeList_deduped _, Samantha.dedupeList_deduped _,
         Samantha.dedupeList_deduped _⟩

/-! ## Claim C1: chunker losslessness -/

namespace Samantha.Chunker

theorem foldl_choice_mem (t x : Nat) (xs : List Nat) :
    xs.foldl (fun best b => if dist b t < dist best t then b else best) x ∈ x :: xs := by
  induction xs generalizing x with
  | nil => simp
  | cons y ys ih =>
    simp only [List.foldl_cons]
    have h := ih (if dist y t < dist x t then y else x)
    rcases List.mem_cons.mp h with hEq | hmem
    · rw [hEq]
      by_cases hc : dist y t < dist x t <;> simp [hc]
    · exact List.mem_cons_of_mem _ (List.mem_cons_of_mem _ hmem)

theorem argminDist_mem (t : Nat) (l : List Nat) (b : Nat)
    (h : argminDist t l = some b) : b ∈ l := by
  cases l with
  | nil => simp [argminDist] at h
  | cons x xs =>
    simp only [argminDist, Option.some.injEq] at h
    rw [← h]
    exact foldl_choice_mem t x xs

theorem findNearestBoundary_some (t m : Nat) (bs : List Nat)
    (target min_pos max_pos b : Nat)
    (h : findNearestBoundary t m bs target min_pos max_pos = some b) :
    min_pos + m ≤ b ∧ b ≤ max_pos := by
  unfold findNearestBoundary at h
  have hmem := argminDist_mem _ _ _ h
  have := (List.mem_filter.mp hmem).2
  simp only [Bool.and_eq_true, decide_eq_true_eq] at this
  exact ⟨this.1, Nat.le_trans this.2 (Nat.min_le_right _ _)⟩

theorem selectSplitPointsGo_chain (t m : Nat) (bs : List Nat) (L : Nat)
    (fuel : Nat) : ∀ cur : Nat,
    List.Chain (fun a b => a ≤ b ∧ b ≤ L) cur (selectSplitPointsGo t m bs L fuel cur) := by
  induction fuel with
  | zero => intro cur; exact List.Chain.nil
  | succ fuel ih =>
    intro cur
    unfold selectSplitPointsGo
    split
    · dsimp only
      split
      · exact List.Chain.nil
      · rename_i hlt htarget
        split
        · rename_i b hb
          have hfb := findNearestBoundary_some t m bs (cur + t) cur L b hb
          exact List.Chain.cons ⟨Nat.le_trans (Nat.le_add_right cur m) hfb.1, hfb.2⟩ (ih b)
        · exact List.Chain.cons ⟨Nat.le_add_right cur t, by omega⟩ (ih (cur + t))
    · exact List.Chain.nil

theorem slice_to_end (text : List Char) (start : Nat) :
    slice text start text.length = text.drop start := by
  unfold slice
  rw [← List.length_drop, List.take_length]

theorem slice_append_drop (text : List Char) (pos e : Nat)
    (h1 : pos ≤ e) (_h2 : e ≤ text.length) :
    slice text pos e ++ text.drop e = text.drop pos := by
  unfold slice
  have hd : text.drop e = (text.drop pos).drop (e - pos) := by
    rw [List.drop_drop]
    congr 1
    omega
  rw [hd, List.take_append_drop]

theorem coversFrom_flatten (text : List Char) :
    ∀ (cs : List Chunk) (pos : Nat), coversFrom text pos cs = true →
      (cs.map Chunk.text).flatten = text.drop pos := by
  intro cs
  induction cs with
  | nil =>
    intro pos h
    simp only [coversFrom, decide_eq_true_eq] at h
    simp [h, List.drop_length]
  | cons c rest ih =>
    intro pos h
    simp only [coversFrom, Bool.and_eq_true, decide_eq_true_eq] at h
    obtain ⟨⟨⟨⟨hstart, hle⟩, hend⟩, htext⟩, hrest⟩ := h
    simp only [List.map_cons, List.flatten_cons]
    rw [ih c.end_char hrest, htext, hstart]
    exact slice_append_drop text pos c.end_char hle hend

theorem buildNaturalChunks_covers (text : List Char) (reasons : List (Nat × String)) :
    ∀ (ps : List Nat) (start idx : Nat),
      List.Chain (fun a b => a ≤ b ∧ b ≤ text.length) start ps →
      start ≤ text.length →
      coversFrom text start (buildNaturalChunks text reasons ps start idx) = true := by
  intro ps
  induction ps with
  | nil =>
    intro start idx _ hstart
    unfold buildNaturalChunks
    split
    · simp [coversFrom, slice_to_end, hstart]
    · simp only [coversFrom, decide_eq_true_eq]
      omega
  | cons e rest ih =>
    intro start idx hchain hstart
    rcases hchain with _ | ⟨⟨h1, h2⟩, hrest⟩
    have hrec := ih e (idx + 1) hrest h2
    simp [buildNaturalChunks, coversFrom, h1, h2, hrec]

theorem coversFrom_map_totals (text : List Char) (n : Nat) :
    ∀ (cs : List Chunk) (pos : Nat),
      coversFrom text pos (cs.map (fun c => { c with total_chunks := n })) =
        coversFrom text pos cs := by
  intro cs
  induction cs with
  | nil => intro pos; rfl
  | cons c rest ih =>
    intro pos
    simp only [List.map_cons, coversFrom, ih]

theorem coversFrom_setTotals (text : List Char) (pos : Nat) (cs : List Chunk) :
    coversFrom text pos (setTotals cs) = coversFrom text pos cs :=
  coversFrom_map_totals text cs.length cs pos

theorem chunkNatural_covers (t m : Nat) (text : List Char) :
    coversFrom text 0 (chunkNatural t m text) = true := by
  unfold chunkNatural
  rw [coversFrom_setTotals]
  exact buildNaturalChunks_covers text _ _ 0 0
    (selectSplitPointsGo_chain t m _ text.length (text.length + 1) 0)
    (Nat.zero_le _)

theorem chunkFixedGo_covers (t : Nat) (text : List Char) (ht : 1 ≤ t) :
    ∀ (fuel start idx : Nat), start ≤ text.length → text.length - start < fuel →
      coversFrom text start (chunkFixedGo t text fuel start idx) = true := by
  intro fuel
  induction fuel with
  | zero => intro start idx _ hf; omega
  | succ fuel ih =>
    intro start idx hstart hf
    unfold chunkFixedGo
    split
    · rename_i hlt
      have hse : start ≤ min (start + t) text.length :=
        Nat.le_min.mpr ⟨Nat.le_add_right _ _, hstart⟩
      have hrec := ih (min (start + t) text.length) (idx + 1)
        (Nat.min_le_right _ _) (by omega)
      simp [coversFrom, hse, Nat.min_le_right, hrec]
    · simp only [coversFrom, decide_eq_true_eq]
      omega

theorem chunkFixed_covers (t : Nat) (text : List Char) (ht : 1 ≤ t) :
    coversFrom text 0 (chunkFixed t text) = true := by
  unfold chunkFixed
  rw [coversFrom_setTotals]
  exact chunkFixedGo_covers t text ht (text.length + 1) 0 0 (Nat.zero_le _) (by omega)

end Samantha.Chunker

/-- C1 (amended): for the natural and fixed strategies, with positive
target and minimum sizes (on `targetSize = 0`, and on `minSize = 0` with
the natural strategy, the source's split-point loop can fail to advance
and never return — positivity makes the fuel model exact), `chunk`
succeeds and returns chunks that are contiguous and non-overlapping,
cover `[0, len(text))` with each chunk's text the corresponding slice,
and whose concatenation reproduces the original text exactly. The
sentences strategy does not have this property (see the counterexample):
`' '.join` rebuilds chunk text from split sentences and drops the
original inter-sentence whitespace. -/
theorem C1_chunks_lossless_natural_fixed
    (target_size min_size : Nat) (text : List Char) (strategy : String)
    (ht : 1 ≤ target_size) (_hm : 1 ≤ min_size)
    (hs : strategy = "natural" ∨ strategy = "fixed") :
    Samantha.Chunker.chunk target_size min_size text strategy =
      .ok (Samantha.Chunker.chunkOk target_size min_size text strategy)
    ∧ Samantha.Chunker.coversFrom text 0
        (Samantha.Chunker.chunkOk target_size min_size text strategy) = true
    ∧ ((Samantha.Chunker.chunkOk target_size min_size text strategy).map
        Samantha.Chunker.Chunk.text).flatten = text := by
  have key : Samantha.Chunker.chunk target_size min_size text strategy =
      .ok (Samantha.Chunker.chunkOk target_size min_size text strategy) ∧
      Samantha.Chunker.coversFrom text 0
        (Samantha.Chunker.chunkOk target_size min_size text strategy) = true := by
    by_cases hlen : text.length ≤ target_size
    · unfold Samantha.Chunker.chunkOk Samantha.Chunker.chunk
      simp only [hlen, if_pos]
      refine ⟨trivial, ?_⟩
      have hsl : Samantha.Chunker.slice text 0 text.length = text := by
        simpa using Samantha.Chunker.slice_to_end text 0
      simp [Samantha.Chunker.coversFrom, hsl]
    · rcases hs with rfl | rfl
      · have hc : Samantha.Chunker.chunk target_size min_size text "natural" =
            .ok (Samantha.Chunker.chunkNatural target_size min_size text) := by
          unfold Samantha.Chunker.chunk
          rw [if_neg hlen]
          rfl
        have hok : Samantha.Chunker.chunkOk target_size min_size text "natural" =
            Samantha.Chunker.chunkNatural target_size min_size text := by
          unfold Samantha.Chunker.chunkOk
          rw [hc]
        rw [hc, hok]
        exact ⟨rfl, Samantha.Chunker.chunkNatural_covers _ _ _⟩
      · have hc : Samantha.Chunker.chunk target_size min_size text "fixed" =
            .ok (Samantha.Chunker.chunkFixed target_size text) := by
          unfold Samantha.Chunker.chunk
          rw [if_neg hlen]
          rfl
        have hok : Samantha.Chunker.chunkOk target_size min_size text "fixed" =
            Samantha.Chunker.chunkFixed target_size text := by
          unfold Samantha.Chunker.chunkOk
          rw [hc]
        rw [hc, hok]
        exact ⟨rfl, Samantha.Chunker.chunkFixed_covers _ _ ht⟩
  refine ⟨key.1, key.2, ?_⟩
  have := Samantha.Chunker.coversFrom_flatten text _ 0 key.2
  simpa using this

/-- C1 witness: the natural strategy on a concrete text. -/
theorem C1_chunks_lossless_witness :
    Samantha.Chunker.chunk 5 2 "hello\n\nworld!".data "natural" =
      .ok (Samantha.Chunker.chunkOk 5 2 "hello\n\nworld!".data "natural")
    ∧ Samantha.Chunker.coversFrom "hello\n\nworld!".data 0
        (Samantha.Chunker.chunkOk 5 2 "hello\n\nworld!".data "natural") = true
    ∧ ((Samantha.Chunker.chunkOk 5 2 "hello\n\nworld!".data "natural").map
        Samantha.Chunker.Chunk.text).flatten = "hello\n\nworld!".data :=
  C1_chunks_lossless_natural_fixed 5 2 "hello\n\nworld!".data "natural"
    (by decide) (by decide) (Or.inl rfl)

/-- C1 counterexample: with the sentences strategy on `"A. B."`
(target 2, min 1), the two returned chunks are `"A."` and `"B."` — their
concatenation `"A.B."` is not the original text, and the chunks do not
cover `[0, 5)` (the separating space at offset 2 is lost). -/
theorem C1_sentences_counterexample :
    ((Samantha.Chunker.chunkOk 2 1 "A. B.".data "sentences").map
        Samantha.Chunker.Chunk.text).flatten ≠ "A. B.".data
    ∧ Samantha.Chunker.chunk 2 1 "A. B.".data "sentences" =
        .ok (Samantha.Chunker.chunkOk 2 1 "A. B.".data "sentences")
    ∧ Samantha.Chunker.coversFrom "A. B.".data 0
        (Samantha.Chunker.chunkOk 2 1 "A. B.".data "sentences") = false := by
  refine ⟨by decide, rfl, by decide⟩

/-! ## Claim C9: minimum chunk size -/

namespace Samantha.Chunker

theorem dropLast_map_chunks {β : Type} (f : Chunk → β) (l : List Chunk) :
    (l.map f).dropLast = l.dropLast.map f := by
  induction l with
  | nil => rfl
  | cons a l ih => cases l <;> simp_all

theorem setTotals_dropLast (cs : List Chunk) :
    (setTotals cs).dropLast = cs.dropLast.map (fun c => { c with total_chunks := cs.length }) :=
  dropLast_map_chunks _ cs

theorem selectSplitPointsGo_chainStep (t m : Nat) (bs : List Nat) (L : Nat)
    (hmt : m ≤ t) (fuel : Nat) : ∀ cur : Nat,
    List.Chain (fun a b => a + m ≤ b ∧ b ≤ L) cur (selectSplitPointsGo t m bs L fuel cur) := by
  induction fuel with
  | zero => intro cur; exact List.Chain.nil
  | succ fuel ih =>
    intro cur
    unfold selectSplitPointsGo
    split
    · dsimp only
      split
      · exact List.Chain.nil
      · rename_i hlt htarget
        split
        · rename_i b hb
          have hfb := findNearestBoundary_some t m bs (cur + t) cur L b hb
          exact List.Chain.cons ⟨hfb.1, hfb.2⟩ (ih b)
        · exact List.Chain.cons ⟨by omega, by omega⟩ (ih (cur + t))
    · exact List.Chain.nil

theorem slice_length (text : List Char) (a b : Nat) :
    (slice text a b).length = min (b - a) (text.length - a) := by
  simp [slice]

theorem buildNaturalChunks_dropLast_len (text : List Char) (reasons : List (Nat × String))
    (m : Nat) :
    ∀ (ps : List Nat) (start idx : Nat),
      List.Chain (fun a b => a + m ≤ b ∧ b ≤ text.length) start ps →
      ∀ c ∈ (buildNaturalChunks text reasons ps start idx).dropLast, m ≤ c.text.length := by
  intro ps
  induction ps with
  | nil =>
    intro start idx _ c hc
    unfold buildNaturalChunks at hc
    split at hc <;> simp at hc
  | cons e rest ih =>
    intro start idx hchain c hc
    rcases hchain with _ | ⟨⟨h1, h2⟩, hrest⟩
    rw [buildNaturalChunks] at hc
    cases hr : buildNaturalChunks text reasons rest e (idx + 1) with
    | nil => rw [hr] at hc; simp at hc
    | cons c0 l0 =>
      rw [hr, List.dropLast_cons_of_ne_nil (by simp)] at hc
      rcases List.mem_cons.mp hc with rfl | hc'
      · have := slice_length text start e
        simp only [this]
        omega
      · have := ih e (idx + 1) hrest c
        rw [hr] at this
        exact this hc'

theorem chunkNatural_dropLast_len (t m : Nat) (text : List Char) (hmt : m ≤ t) :
    ∀ c ∈ (chunkNatural t m text).dropLast, m ≤ c.text.length := by
  intro c hc
  unfold chunkNatural at hc
  rw [setTotals_dropLast] at hc
  obtain ⟨c0, hc0, rfl⟩ := List.mem_map.mp hc
  exact buildNaturalChunks_dropLast_len text _ m _ 0 0
    (selectSplitPointsGo_chainStep t m _ text.length hmt (text.length + 1) 0) c0 hc0

theorem chunkFixedGo_ne_nil_lt (t : Nat) (text : List Char) :
    ∀ (fuel s i : Nat), chunkFixedGo t text fuel s i ≠ [] → s < text.length := by
  intro fuel s i h
  cases fuel with
  | zero => simp [chunkFixedGo] at h
  | succ fuel =>
    unfold chunkFixedGo at h
    by_cases hs : s < text.length
    · exact hs
    · rw [if_neg hs] at h; simp at h

theorem chunkFixedGo_dropLast_len (t m : Nat) (text : List Char) (hmt : m ≤ t) :
    ∀ (fuel s i : Nat), ∀ c ∈ (chunkFixedGo t text fuel s i).dropLast, m ≤ c.text.length := by
  intro fuel
  induction fuel with
  | zero => intro s i c hc; simp [chunkFixedGo] at hc
  | succ fuel ih =>
    intro s i c hc
    unfold chunkFixedGo at hc
    split at hc
    · rename_i hlt
      dsimp only at hc
      cases hr : chunkFixedGo t text fuel (min (s + t) text.length) (i + 1) with
      | nil => rw [hr] at hc; simp at hc
      | cons c0 l0 =>
        rw [hr, List.dropLast_cons_of_ne_nil (by simp)] at hc
        rcases List.mem_cons.mp hc with rfl | hc'
        · have hlt2 : min (s + t) text.length < text.length := by
            have := chunkFixedGo_ne_nil_lt t text fuel (min (s + t) text.length) (i + 1)
              (by rw [hr]; simp)
            exact this
          have := slice_length text s (min (s + t) text.length)
          simp only [this]
          omega
        · have := ih (min (s + t) text.length) (i + 1) c
          rw [hr] at this
          exact this hc'
    · simp at hc

theorem chunkFixed_dropLast_len (t m : Nat) (text : List Char) (hmt : m ≤ t) :
    ∀ c ∈ (chunkFixed t text).dropLast, m ≤ c.text.length := by
  intro c hc
  unfold chunkFixed at hc
  rw [setTotals_dropLast] at hc
  obtain ⟨c0, hc0, rfl⟩ := List.mem_map.mp hc
  exact chunkFixedGo_dropLast_len t m text hmt _ 0 0 c0 hc0

theorem intersperse_flatten_len_ge (sep : List Char) :
    ∀ l : List (List Char), (l.map List.length).sum ≤ ((l.intersperse sep).flatten).length := by
  intro l
  induction l with
  | nil => simp
  | cons x xs ih =>
    cases xs with
    | nil => simp
    | cons y ys =>
      rw [List.intersperse_cons_cons]
      simp only [List.flatten_cons, List.length_append, List.map_cons, List.sum_cons]
      have ih' := ih
      simp only [List.map_cons, List.sum_cons] at ih'
      omega

theorem chunkSentencesGo_ne_nil (t m : Nat) :
    ∀ (sentences cur : List (List Char)) (size start idx : Nat), cur ≠ [] →
      chunkSentencesGo t m sentences cur size start idx ≠ [] := by
  intro sentences
  induction sentences with
  | nil =>
    intro cur size start idx hcur
    unfold chunkSentencesGo
    rw [if_neg (by simpa using hcur)]
    simp
  | cons s rest ih =>
    intro cur size start idx hcur
    unfold chunkSentencesGo
    split
    · simp
    · exact ih (cur ++ [s]) _ _ _ (by simp)

theorem chunkSentencesGo_dropLast_len (t m : Nat) :
    ∀ (sentences cur : List (List Char)) (size start idx : Nat),
      size ≤ (cur.map List.length).sum →
      ∀ c ∈ (chunkSentencesGo t m sentences cur size start idx).dropLast, m ≤ c.text.length := by
  intro sentences
  induction sentences with
  | nil =>
    intro cur size start idx _ c hc
    unfold chunkSentencesGo at hc
    split at hc <;> simp at hc
  | cons s rest ih =>
    intro cur size start idx hsize c hc
    unfold chunkSentencesGo at hc
    split at hc
    · rename_i hcond
      simp only [Bool.and_eq_true, decide_eq_true_eq] at hcond
      dsimp only at hc
      cases hr : chunkSentencesGo t m rest [s] s.length
          (start + ((cur.intersperse " ".data).flatten).length + 1) (idx + 1) with
      | nil =>
        exact absurd hr (chunkSentencesGo_ne_nil t m rest [s] _ _ _ (by simp))
      | cons c0 l0 =>
        rw [hr, List.dropLast_cons_of_ne_nil (by simp)] at hc
        rcases List.mem_cons.mp hc with rfl | hc'
        · have hflat := intersperse_flatten_len_ge [' '] cur
          simp only
          omega
        · have := ih [s] s.length
            (start + (List.intersperse " ".data cur).flatten.length + 1) (idx + 1)
            (by simp) c
          rw [hr] at this
          exact this hc'
    · exact ih (cur ++ [s]) (size + s.length) start idx (by simp; omega) c hc

theorem chunkSentences_dropLast_len (t m : Nat) (text : List Char) :
    ∀ c ∈ (chunkSentences t m text).dropLast, m ≤ c.text.length := by
  intro c hc
  unfold chunkSentences at hc
  rw [setTotals_dropLast] at hc
  obtain ⟨c0, hc0, rfl⟩ := List.mem_map.mp hc
  exact chunkSentencesGo_dropLast_len t m (splitSentences text) [] 0 0 0 (by simp) c0 hc0

end Samantha.Chunker

/-- C9 (amended): for texts longer than the target size and any of the
three strategies, every chunk except the last has length at least
`min_size`, provided `min_size ≤ target_size` (as in the source's
defaults, 50000 ≤ 150000). Without that proviso the fixed strategy
violates the claim: its non-final chunks have length exactly
`target_size` (see the counterexample). -/
theorem C9_min_chunk_size
    (target_size min_size : Nat) (text : List Char) (strategy : String)
    (hmt : min_size ≤ target_size) (hlen : target_size < text.length)
    (hs : strategy = "natural" ∨ strategy = "fixed" ∨ strategy = "sentences") :
    Samantha.Chunker.chunk target_size min_size text strategy =
      .ok (Samantha.Chunker.chunkOk target_size min_size text strategy)
    ∧ ((Samantha.Chunker.chunkOk target_size min_size text strategy).dropLast.all
        (fun c => decide (min_size ≤ c.text.length))) = true := by
  have hnle : ¬ text.length ≤ target_size := by omega
  have hall : ∀ cs : List Samantha.Chunker.Chunk,
      (∀ c ∈ cs.dropLast, min_size ≤ c.text.length) →
      (cs.dropLast.all (fun c => decide (min_size ≤ c.text.length))) = true := by
    intro cs h
    rw [List.all_eq_true]
    intro c hc
    exact decide_eq_true (h c hc)
  rcases hs with rfl | rfl | rfl
  · have hc : Samantha.Chunker.chunk target_size min_size text "natural" =
        .ok (Samantha.Chunker.chunkNatural target_size min_size text) := by
      unfold Samantha.Chunker.chunk
      rw [if_neg hnle]
      rfl
    have hok : Samantha.Chunker.chunkOk target_size min_size text "natural" =
        Samantha.Chunker.chunkNatural target_size min_size text := by
      unfold Samantha.Chunker.chunkOk
      rw [hc]
    rw [hc, hok]
    exact ⟨rfl, hall _ (Samantha.Chunker.chunkNatural_dropLast_len _ _ text hmt)⟩
  · have hc : Samantha.Chunker.chunk target_size min_size text "fixed" =
        .ok (Samantha.Chunker.chunkFixed target_size text) := by
      unfold Samantha.Chunker.chunk
      rw [if_neg hnle]
      rfl
    have hok : Samantha.Chunker.chunkOk target_size min_size text "fixed" =
        Samantha.Chunker.chunkFixed target_size text := by
      unfold Samantha.Chunker.chunkOk
      rw [hc]
    rw [hc, hok]
    exact ⟨rfl, hall _ (Samantha.Chunker.chunkFixed_dropLast_len _ _ text hmt)⟩
  · have hc : Samantha.Chunker.chunk target_size min_size text "sentences" =
        .ok (Samantha.Chunker.chunkSentences target_size min_size text) := by
      unfold Samantha.Chunker.chunk
      rw [if_neg hnle]
      rfl
    have hok : Samantha.Chunker.chunkOk target_size min_size text "sentences" =
        Samantha.Chunker.chunkSentences target_size min_size text := by
      unfold Samantha.Chunker.chunkOk
      rw [hc]
    rw [hc, hok]
    exact ⟨rfl, hall _ (Samantha.Chunker.chunkSentences_dropLast_len _ _ text)⟩

/-- C9 witness: the natural strategy on a concrete text with
`min_size = 2 ≤ target_size = 5`. -/
theorem C9_min_chunk_size_witness :
    Samantha.Chunker.chunk 5 2 "hello\n\nworld!".data "natural" =
      .ok (Samantha.Chunker.chunkOk 5 2 "hello\n\nworld!".data "natural")
    ∧ ((Samantha.Chunker.chunkOk 5 2 "hello\n\nworld!".data "natural").dropLast.all
        (fun c => decide (2 ≤ c.text.length))) = true :=
  C9_min_chunk_size 5 2 "hello\n\nworld!".data "natural" (by decide) (by decide) (Or.inl rfl)

/-- C9 counterexample: with `min_size = 4 > target_size = 2` and the
fixed strategy on `"abcdef"` (length 6 > 2), the chunks are `"ab"`,
`"cd"`, `"ef"`: the non-final chunk `"ab"` has length 2 < 4, refuting
the claim as stated for arbitrary `minSize`. -/
theorem C9_min_chunk_size_counterexample :
    Samantha.Chunker.chunk 2 4 "abcdef".data "fixed" =
      .ok (Samantha.Chunker.chunkOk 2 4 "abcdef".data "fixed")
    ∧ ((Samantha.Chunker.chunkOk 2 4 "abcdef".data "fixed").dropLast.all
        (fun c => decide (4 ≤ c.text.length))) = false :=
  ⟨rfl, by decide⟩

/-! ## Claims C3 and C6: the chunk-processing coordinator -/

namespace Samantha.Store

theorem aget_cons {κ α : Type} [DecidableEq κ] (p : κ × α) (l : List (κ × α)) (k : κ) :
    aget (p :: l) k = if p.1 = k then some p.2 else aget l k := by
  by_cases hp : p.1 = k <;> simp [aget, List.find?_cons, hp]

theorem aget_aset_self {κ α : Type} [DecidableEq κ] (m : List (κ × α)) (k : κ) (v : α) :
    aget (aset m k v) k = some v := by
  induction m with
  | nil => simp [aset, aget_cons]
  | cons p rest ih =>
    rw [aset]
    by_cases hp : p.1 = k
    · rw [if_pos hp, aget_cons]
      simp
    · rw [if_neg hp, aget_cons, if_neg hp]
      exact ih

theorem aget_aset_ne {κ α : Type} [DecidableEq κ] (m : List (κ × α)) (k k' : κ) (v : α)
    (h : k' ≠ k) : aget (aset m k v) k' = aget m k' := by
  induction m with
  | nil => simp [aset, aget_cons, aget, Ne.symm h]
  | cons p rest ih =>
    rw [aset]
    by_cases hp : p.1 = k
    · rw [if_pos hp, aget_cons, aget_cons, if_neg (by simp [Ne.symm h]),
        if_neg (by rw [hp]; exact Ne.symm h)]
    · rw [if_neg hp, aget_cons, aget_cons, ih]

theorem cget_cset_self {α : Type} (m : List (Nat × α)) (n : Nat) (v : α) :
    cget (cset m n v) n = some v :=
  aget_aset_self m n v

theorem cget_cset_ne {α : Type} (m : List (Nat × α)) (n k : Nat) (v : α) (h : k ≠ n) :
    cget (cset m n v) k = cget m k :=
  aget_aset_ne m n k v h

theorem parsed_updateChunkStatus (ws : WS) (n : Nat) (s now : String) (meta : Doc) :
    (updateChunkStatus ws n s now meta).parsed = ws.parsed := by
  cases h : ws.manifest <;> simp [updateChunkStatus, h]

theorem manifest_some_updateChunkStatus (ws : WS) (n : Nat) (s now : String) (meta : Doc)
    (m : Manifest) (h : ws.manifest = some m) :
    (updateChunkStatus ws n s now meta).manifest =
      some (Manifest.mk m.session_id m.total_chunks m.created_at
        (cset m.chunks n
          (dupdate (dupdate ((cget m.chunks n).getD [("attempts", .nat 0)])
            [("status", .str s), ("updated_at", .str now)]) meta))) := by
  simp [updateChunkStatus, h]

theorem chunks_updateChunkStatus_ne (ws : WS) (n k : Nat) (s now : String) (meta : Doc)
    (h : k ≠ n) :
    cget (getChunkManifest (updateChunkStatus ws n s now meta)).chunks k =
      cget (getChunkManifest ws).chunks k := by
  cases hm : ws.manifest with
  | none => rw [updateChunkStatus, hm]
  | some m =>
    unfold getChunkManifest
    rw [manifest_some_updateChunkStatus ws n s now meta m hm, hm]
    dsimp only
    exact aget_aset_ne m.chunks n k _ h

theorem manifest_isSome_updateChunkStatus (ws : WS) (n : Nat) (s now : String) (meta : Doc)
    (h : ws.manifest.isSome) : (updateChunkStatus ws n s now meta).manifest.isSome := by
  cases hm : ws.manifest with
  | none => rw [hm] at h; simp at h
  | some m => rw [manifest_some_updateChunkStatus ws n s now meta m hm]; rfl

end Samantha.Store

namespace Samantha.Worker

open Samantha.Store

theorem chunkLoop_parsed_frame (analyzer : Analyzer) (now : String) (total : Nat) :
    ∀ (ts : List String) (num : Nat) (ctx : String) (ws : WS) (k : Nat), k < num →
      cget (chunkLoop analyzer now total ts num ctx ws).1.parsed k = cget ws.parsed k := by
  intro ts
  induction ts with
  | nil => intro num ctx ws k _; rfl
  | cons t rest ih =>
    intro num ctx ws k hk
    unfold chunkLoop
    cases hres : analyzer num with
    | ok r =>
      dsimp only
      rw [ih (num + 1) _ _ k (by omega), parsed_updateChunkStatus]
      dsimp only
      rw [cget_cset_ne _ num k _ (by omega), parsed_updateChunkStatus]
    | error e =>
      dsimp only
      rw [ih (num + 1) _ _ k (by omega), parsed_updateChunkStatus]
      dsimp only
      rw [cget_cset_ne _ num k _ (by omega), parsed_updateChunkStatus]

theorem chunkLoop_chunks_frame (analyzer : Analyzer) (now : String) (total : Nat) :
    ∀ (ts : List String) (num : Nat) (ctx : String) (ws : WS) (k : Nat), k < num →
      cget (getChunkManifest (chunkLoop analyzer now total ts num ctx ws).1).chunks k =
        cget (getChunkManifest ws).chunks k := by
  intro ts
  induction ts with
  | nil => intro num ctx ws k _; rfl
  | cons t rest ih =>
    intro num ctx ws k hk
    unfold chunkLoop
    have hparsed : ∀ (ws' : WS) (input : String),
        getChunkManifest { ws' with parsed := cset ws'.parsed num input } =
          getChunkManifest ws' := by
      intro ws' input
      cases h : ws'.manifest <;> simp [getChunkManifest, h]
    cases hres : analyzer num with
    | ok r =>
      dsimp only
      rw [ih (num + 1) _ _ k (by omega)]
      rw [chunks_updateChunkStatus_ne _ num k _ _ _ (by omega)]
      rw [hparsed]
      rw [chunks_updateChunkStatus_ne _ num k _ _ _ (by omega)]
    | error e =>
      dsimp only
      rw [ih (num + 1) _ _ k (by omega)]
      rw [chunks_updateChunkStatus_ne _ num k _ _ _ (by omega)]
      rw [hparsed]
      rw [chunks_updateChunkStatus_ne _ num k _ _ _ (by omega)]
end Samantha.Worker

namespace Samantha.Store

theorem dget_dset_self (d : Doc) (k : String) (v : Val) : dget (dset d k v) k = some v :=
  aget_aset_self d k v

theorem dget_dset_ne (d : Doc) (k k' : String) (v : Val) (h : k' ≠ k) :
    dget (dset d k v) k' = dget d k' :=
  aget_aset_ne d k k' v h

end Samantha.Store

namespace Samantha.Worker

open Samantha.Store

theorem chunkLoop_parsed_write (analyzer : Analyzer) (now : String) (total : Nat)
    (t : String) (rest : List String) (num : Nat) (ctx : String) (ws : WS) :
    cget (chunkLoop analyzer now total (t :: rest) num ctx ws).1.parsed num =
      some (buildInput ctx t) := by
  unfold chunkLoop
  cases hres : analyzer num with
  | ok r =>
    dsimp only
    rw [chunkLoop_parsed_frame analyzer now total rest (num + 1) _ _ num (by omega),
      parsed_updateChunkStatus]
    dsimp only
    rw [cget_cset_self]
  | error e =>
    dsimp only
    rw [chunkLoop_parsed_frame analyzer now total rest (num + 1) _ _ num (by omega),
      parsed_updateChunkStatus]
    dsimp only
    rw [cget_cset_self]

theorem chunkLoop_next_input (analyzer : Analyzer) (now : String) (total : Nat) :
    ∀ (ts : List String) (num : Nat) (ctx : String) (ws : WS) (j : Nat)
      (r : AnalysisResult) (tj1 : String),
      analyzer (num + j) = .ok r → num + j < total → ts.get? (j + 1) = some tj1 →
      cget (chunkLoop analyzer now total ts num ctx ws).1.parsed (num + j + 1) =
        some (buildInput (toContextSummary r) tj1) := by
  intro ts
  induction ts with
  | nil => intro num ctx ws j r tj1 _ _ hget; simp at hget
  | cons t rest ih =>
    intro num ctx ws j r tj1 hok hlt hget
    cases j with
    | zero =>
      simp only [Nat.add_zero] at hok hlt
      cases rest with
      | nil => simp at hget
      | cons t1 rest' =>
        simp only [List.get?] at hget
        have ht1 : t1 = tj1 := by simpa using hget
        subst ht1
        unfold chunkLoop
        rw [hok]
        dsimp only
        rw [if_pos hlt, show num + 0 + 1 = num + 1 by omega]
        exact chunkLoop_parsed_write analyzer now total t1 rest' (num + 1)
          (toContextSummary r) _
    | succ j' =>
      have harith : num + (j' + 1) = (num + 1) + j' := by omega
      rw [harith] at hok hlt
      have hget' : rest.get? (j' + 1) = some tj1 := by simpa using hget
      unfold chunkLoop
      cases hres : analyzer num with
      | ok r0 =>
        dsimp only
        rw [show num + (j' + 1) + 1 = (num + 1) + j' + 1 by omega]
        exact ih (num + 1) _ _ j' r tj1 hok hlt hget'
      | error e =>
        dsimp only
        rw [show num + (j' + 1) + 1 = (num + 1) + j' + 1 by omega]
        exact ih (num + 1) _ _ j' r tj1 hok hlt hget'

theorem chunkLoop_parsed_written (analyzer : Analyzer) (now : String) (total : Nat) :
    ∀ (ts : List String) (num : Nat) (ctx : String) (ws : WS) (k : Nat), k < ts.length →
      (cget (chunkLoop analyzer now total ts num ctx ws).1.parsed (num + k)).isSome = true := by
  intro ts
  induction ts with
  | nil => intro num ctx ws k hk; simp at hk
  | cons t rest ih =>
    intro num ctx ws k hk
    cases k with
    | zero =>
      rw [Nat.add_zero, chunkLoop_parsed_write]
      rfl
    | succ k' =>
      have hk' : k' < rest.length := by simpa using hk
      unfold chunkLoop
      cases hres : analyzer num with
      | ok r =>
        dsimp only
        rw [show num + (k' + 1) = (num + 1) + k' by omega]
        exact ih (num + 1) _ _ k' hk'
      | error e =>
        dsimp only
        rw [show num + (k' + 1) = (num + 1) + k' by omega]
        exact ih (num + 1) _ _ k' hk'

theorem chunkLoop_results_map (analyzer : Analyzer) (now : String) (total : Nat) :
    ∀ (ts : List String) (num : Nat) (ctx : String) (ws : WS),
      (chunkLoop analyzer now total ts num ctx ws).2.map (·.1) =
        ((List.range ts.length).map (· + num)).filter (fun k => (analyzer k).isOk) := by
  intro ts
  induction ts with
  | nil => intro num ctx ws; rfl
  | cons t rest ih =>
    intro num ctx ws
    have hrange : ((List.range (rest.length + 1)).map (· + num)) =
        num :: ((List.range rest.length).map (· + (num + 1))) := by
      rw [List.range_succ_eq_map]
      simp only [List.map_cons, List.map_map, Nat.zero_add]
      congr 1
      apply List.map_congr_left
      intro x _
      simp [Function.comp]
      omega
    unfold chunkLoop
    cases hres : analyzer num with
    | ok r =>
      dsimp only
      simp only [List.length_cons, hrange, List.filter_cons, hres, List.map_cons]
      rw [ih (num + 1)]
      simp [Except.isOk, Except.toBool]
    | error e =>
      dsimp only
      simp only [List.length_cons, hrange, List.filter_cons, hres]
      rw [ih (num + 1)]
      simp [Except.isOk, Except.toBool]

end Samantha.Worker

namespace Samantha.Store

theorem getChunkManifest_parsed_update (ws : WS) (v : List (Nat × String)) :
    getChunkManifest { ws with parsed := v } = getChunkManifest ws := by
  cases h : ws.manifest <;> simp [getChunkManifest, h]

theorem failed_record_projections (base : Doc) (now e : String) (att : Nat) :
    dget (dupdate (dupdate base [("status", .str "failed"), ("updated_at", .str now)])
        [("failed_at", .str now), ("error", .str e), ("attempts", .nat att)]) "status" =
      some (.str "failed")
    ∧ dget (dupdate (dupdate base [("status", .str "failed"), ("updated_at", .str now)])
        [("failed_at", .str now), ("error", .str e), ("attempts", .nat att)]) "error" =
      some (.str e)
    ∧ dget (dupdate (dupdate base [("status", .str "failed"), ("updated_at", .str now)])
        [("failed_at", .str now), ("error", .str e), ("attempts", .nat att)]) "failed_at" =
      some (.str now)
    ∧ dget (dupdate (dupdate base [("status", .str "failed"), ("updated_at", .str now)])
        [("failed_at", .str now), ("error", .str e), ("attempts", .nat att)]) "attempts" =
      some (.nat att) := by
  dsimp only [dupdate, List.foldl]
  refine ⟨?_, ?_, ?_, ?_⟩
  · rw [dget_dset_ne _ _ _ _ (by decide), dget_dset_ne _ _ _ _ (by decide),
      dget_dset_ne _ _ _ _ (by decide), dget_dset_ne _ _ _ _ (by decide), dget_dset_self]
  · rw [dget_dset_ne _ _ _ _ (by decide), dget_dset_self]
  · rw [dget_dset_ne _ _ _ _ (by decide), dget_dset_ne _ _ _ _ (by decide), dget_dset_self]
  · rw [dget_dset_self]

theorem processing_preserves_attempts (base : Doc) (now : String) :
    dgetNat (dupdate (dupdate base [("status", .str "processing"), ("updated_at", .str now)])
      [("started_at", .str now)]) "attempts" = dgetNat base "attempts" := by
  dsimp only [dupdate, List.foldl]
  unfold dgetNat
  rw [dget_dset_ne _ _ _ _ (by decide), dget_dset_ne _ _ _ _ (by decide),
    dget_dset_ne _ _ _ _ (by decide)]

theorem failed_update_entry (ws2 : WS) (num : Nat) (now e : String) (att : Nat)
    (m2 : Manifest) (hm2 : ws2.manifest = some m2) :
    cget (getChunkManifest (updateChunkStatus ws2 num "failed" now
        [("failed_at", .str now), ("error", .str e), ("attempts", .nat att)])).chunks num =
      some (dupdate (dupdate ((cget m2.chunks num).getD [("attempts", .nat 0)])
        [("status", .str "failed"), ("updated_at", .str now)])
        [("failed_at", .str now), ("error", .str e), ("attempts", .nat att)]) := by
  unfold getChunkManifest
  rw [manifest_some_updateChunkStatus ws2 num "failed" now _ m2 hm2]
  dsimp only
  exact cget_cset_self _ _ _

end Samantha.Store

namespace Samantha.Worker

open Samantha.Store

theorem chunkLoop_failed_entry (analyzer : Analyzer) (now : String) (total : Nat) :
    ∀ (ts : List String) (num : Nat) (ctx : String) (ws : WS) (j : Nat) (tj e : String),
      ts.get? j = some tj → analyzer (num + j) = .error e → ws.manifest.isSome →
      ∃ d, cget (getChunkManifest (chunkLoop analyzer now total ts num ctx ws).1).chunks
              (num + j) = some d
        ∧ dget d "status" = some (.str "failed")
        ∧ dget d "error" = some (.str e)
        ∧ dget d "failed_at" = some (.str now)
        ∧ dget d "attempts" = some (.nat
            (dgetNat ((cget (getChunkManifest ws).chunks (num + j)).getD
              [("attempts", .nat 0)]) "attempts" + 1)) := by
  intro ts
  induction ts with
  | nil => intro num ctx ws j tj e hget _ _; simp at hget
  | cons t rest ih =>
    intro num ctx ws j tj e hget hres hsome
    cases j with
    | zero =>
      simp only [Nat.add_zero] at hres ⊢
      cases hmm : ws.manifest with
      | none => rw [hmm] at hsome; simp at hsome
      | some m =>
        have hm1 := manifest_some_updateChunkStatus ws num "processing" now
          [("started_at", .str now)] m hmm
        unfold chunkLoop
        rw [hres]
        dsimp only
        rw [chunkLoop_chunks_frame analyzer now total rest (num + 1) _ _ num (by omega)]
        have hm2 : ({ updateChunkStatus ws num "processing" now [("started_at", Val.str now)] with
            parsed := cset (updateChunkStatus ws num "processing" now
              [("started_at", Val.str now)]).parsed num (buildInput ctx t) } : WS).manifest =
            some (Manifest.mk m.session_id m.total_chunks m.created_at
              (cset m.chunks num
                (dupdate (dupdate ((cget m.chunks num).getD [("attempts", .nat 0)])
                  [("status", .str "processing"), ("updated_at", .str now)])
                  [("started_at", .str now)]))) := by
          dsimp only
          exact hm1
        rw [failed_update_entry _ num now e _ _ hm2]
        dsimp only
        rw [cget_cset_self]
        have hread : cget (getChunkManifest
            ({ updateChunkStatus ws num "processing" now [("started_at", Val.str now)] with
              parsed := cset (updateChunkStatus ws num "processing" now
                [("started_at", Val.str now)]).parsed num (buildInput ctx t) } : WS)).chunks num =
            some (dupdate (dupdate ((cget m.chunks num).getD [("attempts", .nat 0)])
              [("status", .str "processing"), ("updated_at", .str now)])
              [("started_at", .str now)]) := by
          rw [getChunkManifest_parsed_update]
          unfold getChunkManifest
          rw [hm1]
          dsimp only
          exact cget_cset_self _ _ _
        rw [hread, Option.getD_some, Option.getD_some]
        rw [processing_preserves_attempts]
        have hproj := failed_record_projections
          (dupdate (dupdate ((cget m.chunks num).getD [("attempts", .nat 0)])
            [("status", .str "processing"), ("updated_at", .str now)])
            [("started_at", .str now)]) now e
          (dgetNat ((cget m.chunks num).getD [("attempts", .nat 0)]) "attempts" + 1)
        refine ⟨_, rfl, hproj.1, hproj.2.1, hproj.2.2.1, ?_⟩
        rw [hproj.2.2.2]
        unfold getChunkManifest
        rw [hmm]
    | succ j' =>
      have harith : num + (j' + 1) = (num + 1) + j' := by omega
      rw [harith] at hres ⊢
      have hget' : rest.get? j' = some tj := by simpa using hget
      unfold chunkLoop
      cases hres0 : analyzer num with
      | ok r =>
        dsimp only
        have hsome' : (updateChunkStatus
            ({ updateChunkStatus ws num "processing" now [("started_at", Val.str now)] with
              parsed := cset (updateChunkStatus ws num "processing" now
                [("started_at", Val.str now)]).parsed num (buildInput ctx t) } : WS)
            num "complete" now
            [("completed_at", Val.str now), ("patterns_count", Val.nat r.patterns.length),
             ("decisions_count", Val.nat r.decisions.length)]).manifest.isSome := by
          apply manifest_isSome_updateChunkStatus
          dsimp only
          apply manifest_isSome_updateChunkStatus
          exact hsome
        obtain ⟨d, hd, hs, he, hf, ha⟩ := ih (num + 1) _ _ j' tj e hget' hres hsome'
        refine ⟨d, hd, hs, he, hf, ?_⟩
        rw [ha]
        rw [chunks_updateChunkStatus_ne _ num _ _ _ _ (by omega),
          getChunkManifest_parsed_update,
          chunks_updateChunkStatus_ne _ num _ _ _ _ (by omega)]
      | error e0 =>
        dsimp only
        have hsome' : (updateChunkStatus
            ({ updateChunkStatus ws num "processing" now [("started_at", Val.str now)] with
              parsed := cset (updateChunkStatus ws num "processing" now
                [("started_at", Val.str now)]).parsed num (buildInput ctx t) } : WS)
            num "failed" now
            [("failed_at", Val.str now), ("error", Val.str e0),
             ("attempts", Val.nat (dgetNat ((cget (getChunkManifest
               ({ updateChunkStatus ws num "processing" now [("started_at", Val.str now)] with
                 parsed := cset (updateChunkStatus ws num "processing" now
                   [("started_at", Val.str now)]).parsed num (buildInput ctx t) } : WS)).chunks
                 num).getD []) "attempts" + 1))]).manifest.isSome := by
          apply manifest_isSome_updateChunkStatus
          dsimp only
          apply manifest_isSome_updateChunkStatus
          exact hsome
        obtain ⟨d, hd, hs, he, hf, ha⟩ := ih (num + 1) _ _ j' tj e hget' hres hsome'
        refine ⟨d, hd, hs, he, hf, ?_⟩
        rw [ha]
        rw [chunks_updateChunkStatus_ne _ num _ _ _ _ (by omega),
          getChunkManifest_parsed_update,
          chunks_updateChunkStatus_ne _ num _ _ _ _ (by omega)]

end Samantha.Worker

namespace Samantha

theorem toContextSummary_ne_empty (r : AnalysisResult) : toContextSummary r ≠ "" := by
  intro h
  have hl : (toContextSummary r).length = 0 := by rw [h]; rfl
  unfold toContextSummary at hl
  simp only [List.cons_append, joinLines, String.length_append] at hl
  have h19 : "## Previous Context".length = 19 := rfl
  omega

end Samantha

namespace Samantha.Store

theorem aget_append {κ α : Type} [DecidableEq κ] (l1 l2 : List (κ × α)) (k : κ) :
    aget (l1 ++ l2) k = match aget l1 k with
      | some v => some v
      | none => aget l2 k := by
  induction l1 with
  | nil => simp [aget]
  | cons p rest ih =>
    by_cases hp : p.1 = k
    · simp [aget, List.find?_cons, hp]
    · simp only [List.cons_append, aget_cons, hp, if_neg, if_false]
      exact ih

theorem aget_range_map_none {α : Type} (c : α) :
    ∀ (N k : Nat), N < k → aget ((List.range N).map (fun i => (i + 1, c))) k = none := by
  intro N
  induction N with
  | zero => intro k _; simp [aget]
  | succ N ih =>
    intro k hk
    rw [List.range_succ, List.map_append, aget_append]
    rw [ih k (by omega)]
    have hne : ¬ ((N + 1 : Nat) = k) := by omega
    simp [aget, List.find?_cons, hne]

theorem aget_range_map {α : Type} (c : α) :
    ∀ (N k : Nat), 1 ≤ k → k ≤ N →
      aget ((List.range N).map (fun i => (i + 1, c))) k = some c := by
  intro N
  induction N with
  | zero => intro k h1 h2; omega
  | succ N ih =>
    intro k h1 h2
    rw [List.range_succ, List.map_append, aget_append]
    by_cases hk : k ≤ N
    · rw [ih k h1 hk]
    · have hke : k = N + 1 := by omega
      rw [aget_range_map_none c N k (by omega)]
      simp [aget, List.find?, hke]

theorem initChunkManifest_entry (ws : WS) (N k : Nat) (now : String)
    (h1 : 1 ≤ k) (h2 : k ≤ N) :
    cget (getChunkManifest (initChunkManifest ws N now)).chunks k =
      some [("status", .str "pending"), ("attempts", .nat 0), ("created_at", .str now)] := by
  unfold initChunkManifest getChunkManifest
  dsimp only
  exact aget_range_map _ N k h1 h2

end Samantha.Store

namespace Samantha.Worker

theorem filter_ne_of_not_mem (i : Nat) (l : List (Nat × AnalysisResult))
    (h : i ∉ l.map (·.1)) : l.filter (fun p => p.1 ≠ i) = l := by
  induction l with
  | nil => rfl
  | cons p rest ih =>
    simp only [List.map_cons, List.mem_cons, not_or] at h
    rw [List.filter_cons, if_pos (by simpa using Ne.symm h.1)]
    rw [ih h.2]

end Samantha.Worker

/-- C3 counterexample: in a concrete 3-chunk run where chunk 2's analysis
fails, chunk 3's analyzer input is the condensed context of chunk 1's
result (not chunk 2's — chunk 2 produced none), so the context a chunk
sees can reflect a chunk earlier than its immediate predecessor,
refuting the claim as stated. -/
theorem C3_context_counterexample :
    Samantha.Store.cget
        (Samantha.Worker.workerFinal Samantha.Worker.exampleAnalyzer "T"
          ["t1", "t2", "t3"] Samantha.Worker.exampleWS).parsed 3 =
      some (Samantha.toContextSummary Samantha.Worker.exampleResult1 ++
        Samantha.Worker.contextDelimiter ++ "t3")
    ∧ (Samantha.Worker.workerResults Samantha.Worker.exampleAnalyzer "T"
        ["t1", "t2", "t3"] Samantha.Worker.exampleWS).map (·.1) = [1, 3] := by
  exact ⟨by decide, by decide⟩

/-- C3 (amended): in the chunk-processing coordinator, chunk 1's analyzer
input is its own text, and whenever chunk `j+1`'s analysis succeeded with
result `r` and a chunk `j+2` follows, chunk `j+2`'s input is exactly
that condensed context (`to_context_summary` of `r` — the result of its
immediate predecessor), the fixed delimiter, then its own text: context
is replaced at every successful step. (When the predecessor failed, the
context of the most recent successful chunk is reused instead — see the
counterexample.) -/
theorem C3_context_propagation
    (analyzer : Samantha.Worker.Analyzer) (now : String) (ts : List String)
    (ws : Samantha.Store.WS) (t : String) (rest : List String) (j : Nat)
    (r : Samantha.AnalysisResult) (tj1 : String)
    (hts : ts = t :: rest)
    (hok : analyzer (j + 1) = .ok r)
    (hnext : ts.get? (j + 1) = some tj1) :
    Samantha.Store.cget (Samantha.Worker.workerFinal analyzer now ts ws).parsed 1 = some t
    ∧ Samantha.Store.cget (Samantha.Worker.workerFinal analyzer now ts ws).parsed (j + 2) =
        some (Samantha.toContextSummary r ++ Samantha.Worker.contextDelimiter ++ tj1) := by
  subst hts
  constructor
  · unfold Samantha.Worker.workerFinal Samantha.Worker.analyzeWithChunking
    dsimp only
    rw [Samantha.Worker.chunkLoop_parsed_write]
    simp [Samantha.Worker.buildInput]
  · unfold Samantha.Worker.workerFinal Samantha.Worker.analyzeWithChunking
    dsimp only
    have hlt : j + 1 < (t :: rest).length := by
      by_contra hcon
      rw [List.get?_eq_none.mpr (by omega)] at hnext
      exact Option.noConfusion hnext
    have hok' : analyzer (1 + j) = .ok r := by
      rw [show 1 + j = j + 1 by omega]; exact hok
    rw [show j + 2 = 1 + j + 1 by omega]
    rw [Samantha.Worker.chunkLoop_next_input analyzer now (t :: rest).length
      (t :: rest) 1 "" _ j r tj1 hok' (by omega) hnext]
    unfold Samantha.Worker.buildInput
    rw [if_pos (Samantha.toContextSummary_ne_empty r)]

/-- C3 witness: a concrete 2-chunk run where chunk 1 succeeds. -/
theorem C3_context_propagation_witness :
    Samantha.Store.cget
        (Samantha.Worker.workerFinal Samantha.Worker.exampleAnalyzer "T"
          ["t1", "t2"] Samantha.Worker.exampleWS).parsed 1 = some "t1"
    ∧ Samantha.Store.cget
        (Samantha.Worker.workerFinal Samantha.Worker.exampleAnalyzer "T"
          ["t1", "t2"] Samantha.Worker.exampleWS).parsed (0 + 2) =
        some (Samantha.toContextSummary Samantha.Worker.exampleResult1 ++
          Samantha.Worker.contextDelimiter ++ "t2") :=
  C3_context_propagation Samantha.Worker.exampleAnalyzer "T" ["t1", "t2"]
    Samantha.Worker.exampleWS "t1" ["t2"] 0 Samantha.Worker.exampleResult1 "t2"
    rfl rfl rfl

/-- C6: when the analyzer fails on chunk `i`, the coordinator marks that
chunk's manifest entry `failed` with `failed_at = now`, the error message
and `attempts = 1` (its prior attempt count 0, incremented), does not
abort — every chunk's input is persisted, i.e. every chunk is attempted —
and the list passed to the merger contains exactly the successful chunks
in order, so the failed chunk contributes nothing to the merged result. -/
theorem C6_failed_chunk_isolation
    (analyzer : Samantha.Worker.Analyzer) (now : String) (ts : List String)
    (ws : Samantha.Store.WS) (i : Nat) (e : String)
    (hi1 : 1 ≤ i) (hiN : i ≤ ts.length) (herr : analyzer i = .error e) :
    Samantha.Store.dget ((Samantha.Store.cget (Samantha.Store.getChunkManifest
        (Samantha.Worker.workerFinal analyzer now ts ws)).chunks i).getD []) "status" =
      some (.str "failed")
    ∧ Samantha.Store.dget ((Samantha.Store.cget (Samantha.Store.getChunkManifest
        (Samantha.Worker.workerFinal analyzer now ts ws)).chunks i).getD []) "error" =
      some (.str e)
    ∧ Samantha.Store.dget ((Samantha.Store.cget (Samantha.Store.getChunkManifest
        (Samantha.Worker.workerFinal analyzer now ts ws)).chunks i).getD []) "failed_at" =
      some (.str now)
    ∧ Samantha.Store.dget ((Samantha.Store.cget (Samantha.Store.getChunkManifest
        (Samantha.Worker.workerFinal analyzer now ts ws)).chunks i).getD []) "attempts" =
      some (.nat 1)
    ∧ (((List.range ts.length).map (· + 1)).all
        (fun k => (Samantha.Store.cget
          (Samantha.Worker.workerFinal analyzer now ts ws).parsed k).isSome)) = true
    ∧ (Samantha.Worker.workerResults analyzer now ts ws).map (·.1) =
        ((List.range ts.length).map (· + 1)).filter (fun k => (analyzer k).isOk)
    ∧ Samantha.Worker.workerMerged analyzer now ts ws =
        Samantha.mergeChunkResults
          (((Samantha.Worker.workerResults analyzer now ts ws).filter
            (fun p => p.1 ≠ i)).map (·.2)) := by
  have hres : (Samantha.Worker.workerResults analyzer now ts ws).map (·.1) =
      ((List.range ts.length).map (· + 1)).filter (fun k => (analyzer k).isOk) := by
    unfold Samantha.Worker.workerResults Samantha.Worker.analyzeWithChunking
    dsimp only
    exact Samantha.Worker.chunkLoop_results_map analyzer now ts.length ts 1 "" _
  have hmem : i ∉ (Samantha.Worker.workerResults analyzer now ts ws).map (·.1) := by
    rw [hres]
    intro hmem
    have := List.of_mem_filter hmem
    rw [herr] at this
    simp [Except.isOk, Except.toBool] at this
  have hentry : ∃ d, Samantha.Store.cget (Samantha.Store.getChunkManifest
      (Samantha.Worker.workerFinal analyzer now ts ws)).chunks i = some d
      ∧ Samantha.Store.dget d "status" = some (.str "failed")
      ∧ Samantha.Store.dget d "error" = some (.str e)
      ∧ Samantha.Store.dget d "failed_at" = some (.str now)
      ∧ Samantha.Store.dget d "attempts" = some (.nat 1) := by
    unfold Samantha.Worker.workerFinal Samantha.Worker.analyzeWithChunking
    dsimp only
    cases hg : ts.get? (i - 1) with
    | none =>
      have hlen := List.get?_eq_none.mp hg
      omega
    | some tj =>
      have herr' : analyzer (1 + (i - 1)) = .error e := by
        rw [show 1 + (i - 1) = i by omega]; exact herr
      obtain ⟨d, hd, hs, he', hf, ha⟩ :=
        Samantha.Worker.chunkLoop_failed_entry analyzer now ts.length ts 1 ""
          (Samantha.Store.initChunkManifest ws ts.length now) (i - 1) tj e hg herr' (by
            unfold Samantha.Store.initChunkManifest
            rfl)
      rw [show 1 + (i - 1) = i by omega] at hd ha
      refine ⟨d, hd, hs, he', hf, ?_⟩
      rw [ha, Samantha.Store.initChunkManifest_entry ws ts.length i now hi1 hiN]
      rfl
  obtain ⟨d, hd, hs, he', hf, ha⟩ := hentry
  rw [hd]
  refine ⟨hs, he', hf, ha, ?_, hres, ?_⟩
  · rw [List.all_eq_true]
    intro x hx
    obtain ⟨k, hk, rfl⟩ := List.mem_map.mp hx
    have hk' : k < ts.length := List.mem_range.mp hk
    unfold Samantha.Worker.workerFinal Samantha.Worker.analyzeWithChunking
    dsimp only
    rw [show k + 1 = 1 + k by omega]
    exact Samantha.Worker.chunkLoop_parsed_written analyzer now ts.length ts 1 "" _ k hk'
  · rw [Samantha.Worker.filter_ne_of_not_mem i _ hmem]
    rfl

/-- C6 witness: the concrete 3-chunk run where chunk 2 fails. -/
theorem C6_failed_chunk_isolation_witness :
    Samantha.Store.dget ((Samantha.Store.cget (Samantha.Store.getChunkManifest
        (Samantha.Worker.workerFinal Samantha.Worker.exampleAnalyzer "T"
          ["t1", "t2", "t3"] Samantha.Worker.exampleWS)).chunks 2).getD []) "status" =
      some (.str "failed")
    ∧ Samantha.Store.dget ((Samantha.Store.cget (Samantha.Store.getChunkManifest
        (Samantha.Worker.workerFinal Samantha.Worker.exampleAnalyzer "T"
          ["t1", "t2", "t3"] Samantha.Worker.exampleWS)).chunks 2).getD []) "error" =
      some (.str "boom")
    ∧ Samantha.Store.dget ((Samantha.Store.cget (Samantha.Store.getChunkManifest
        (Samantha.Worker.workerFinal Samantha.Worker.exampleAnalyzer "T"
          ["t1", "t2", "t3"] Samantha.Worker.exampleWS)).chunks 2).getD []) "failed_at" =
      some (.str "T")
    ∧ Samantha.Store.dget ((Samantha.Store.cget (Samantha.Store.getChunkManifest
        (Samantha.Worker.workerFinal Samantha.Worker.exampleAnalyzer "T"
          ["t1", "t2", "t3"] Samantha.Worker.exampleWS)).chunks 2).getD []) "attempts" =
      some (.nat 1)
    ∧ (((List.range (["t1", "t2", "t3"] : List String).length).map (· + 1)).all
        (fun k => (Samantha.Store.cget
          (Samantha.Worker.workerFinal Samantha.Worker.exampleAnalyzer "T"
            ["t1", "t2", "t3"] Samantha.Worker.exampleWS).parsed k).isSome)) = true
    ∧ (Samantha.Worker.workerResults Samantha.Worker.exampleAnalyzer "T"
        ["t1", "t2", "t3"] Samantha.Worker.exampleWS).map (·.1) =
        ((List.range (["t1", "t2", "t3"] : List String).length).map (· + 1)).filter
          (fun k => (Samantha.Worker.exampleAnalyzer k).isOk)
    ∧ Samantha.Worker.workerMerged Samantha.Worker.exampleAnalyzer "T"
        ["t1", "t2", "t3"] Samantha.Worker.exampleWS =
        Samantha.mergeChunkResults
          (((Samantha.Worker.workerResults Samantha.Worker.exampleAnalyzer "T"
            ["t1", "t2", "t3"] Samantha.Worker.exampleWS).filter
            (fun p => p.1 ≠ 2)).map (·.2)) :=
  C6_failed_chunk_isolation Samantha.Worker.exampleAnalyzer "T" ["t1", "t2", "t3"]
    Samantha.Worker.exampleWS 2 "boom" (by decide) (by decide) rfl

/-! ## Claim C8: session merge process -/

namespace Samantha.Merge

open Samantha.Store

theorem moveMemories_sessions (fs : FS) (sid : String) (dir : SessionDir) :
    (moveMemories fs sid dir).sessions = fs.sessions := by
  unfold moveMemories
  generalize fs = fs0
  induction dir.memories generalizing fs0 with
  | nil => rfl
  | cons mem rest ih =>
    rw [List.foldl_cons]
    rw [ih]
    split <;> rfl

theorem moveMemories_processed (fs : FS) (sid : String) (dir : SessionDir) :
    (moveMemories fs sid dir).processed = fs.processed := by
  unfold moveMemories
  generalize fs = fs0
  induction dir.memories generalizing fs0 with
  | nil => rfl
  | cons mem rest ih =>
    rw [List.foldl_cons]
    rw [ih]
    split <;> rfl

theorem mergeGuidanceFiles_sessions (fs : FS) (l : List (String × SessionDir)) (now : String) :
    (mergeGuidanceFiles fs l now).sessions = fs.sessions := rfl

theorem mergeGuidanceFiles_processed (fs : FS) (l : List (String × SessionDir)) (now : String) :
    (mergeGuidanceFiles fs l now).processed = fs.processed := rfl

theorem mergeOneSession_sessions (fs : FS) (p : String × SessionDir) :
    (mergeOneSession fs p).sessions = fs.sessions.filter (fun q => q.1 ≠ p.1) := by
  unfold mergeOneSession archiveSession
  rw [moveMemories_sessions]

theorem mergeOneSession_processed (fs : FS) (p : String × SessionDir) :
    (mergeOneSession fs p).processed = fset fs.processed p.1 p.2 := by
  unfold mergeOneSession archiveSession
  dsimp only
  rw [moveMemories_processed]

theorem fold_sessions_not_mem (sid : String) :
    ∀ (l : List (String × SessionDir)) (fs : FS),
      sid ∉ fs.sessions.map (·.1) →
      sid ∉ (l.foldl mergeOneSession fs).sessions.map (·.1) := by
  intro l
  induction l with
  | nil => intro fs h; exact h
  | cons p rest ih =>
    intro fs h
    rw [List.foldl_cons]
    apply ih
    rw [mergeOneSession_sessions]
    intro hmem
    obtain ⟨q, hq, rfl⟩ := List.mem_map.mp hmem
    exact h (List.mem_map.mpr ⟨q, List.mem_of_mem_filter hq, rfl⟩)

theorem fold_sessions_removes (sid : String) (dir : SessionDir) :
    ∀ (l : List (String × SessionDir)) (fs : FS),
      (sid, dir) ∈ l →
      sid ∉ (l.foldl mergeOneSession fs).sessions.map (·.1) := by
  intro l
  induction l with
  | nil => intro fs h; simp at h
  | cons p rest ih =>
    intro fs hmem
    rcases List.mem_cons.mp hmem with rfl | hmem'
    · rw [List.foldl_cons]
      apply fold_sessions_not_mem
      rw [mergeOneSession_sessions]
      intro hx
      obtain ⟨q, hq, hq1⟩ := List.mem_map.mp hx
      exact absurd (by simpa using hq1)
        (of_decide_eq_true (List.mem_filter.mp hq).2)
    · rw [List.foldl_cons]
      exact ih _ hmem'

theorem fold_processed_frame (sid : String) :
    ∀ (l : List (String × SessionDir)) (fs : FS),
      sid ∉ l.map (·.1) →
      fget (l.foldl mergeOneSession fs).processed sid = fget fs.processed sid := by
  intro l
  induction l with
  | nil => intro fs _; rfl
  | cons p rest ih =>
    intro fs h
    simp only [List.map_cons, List.mem_cons, not_or] at h
    rw [List.foldl_cons, ih _ h.2, mergeOneSession_processed]
    exact aget_aset_ne _ _ _ _ h.1

theorem fold_processed_lookup (sid : String) (dir : SessionDir) :
    ∀ (l : List (String × SessionDir)) (fs : FS),
      (l.map (·.1)).Nodup → (sid, dir) ∈ l →
      fget (l.foldl mergeOneSession fs).processed sid = some dir := by
  intro l
  induction l with
  | nil => intro fs _ h; simp at h
  | cons p rest ih =>
    intro fs hnodup hmem
    have hn := hnodup
    rw [List.map_cons] at hn
    have hsplit := List.nodup_cons.mp hn
    rcases List.mem_cons.mp hmem with rfl | hmem'
    · rw [List.foldl_cons]
      rw [fold_processed_frame sid rest _ hsplit.1, mergeOneSession_processed]
      exact aget_aset_self _ _ _
    · rw [List.foldl_cons]
      exact ih _ hsplit.2 hmem'

theorem mem_completedSessions (fs : FS) (sid : String) (dir : SessionDir)
    (hmem : (sid, dir) ∈ fs.sessions) (hstatus : statusStr dir = "complete") :
    (sid, dir) ∈ completedSessions fs := by
  unfold completedSessions getActiveSessions
  rw [List.mem_filter, List.mem_filter]
  refine ⟨⟨hmem, ?_⟩, by simpa using hstatus⟩
  simp [hstatus]

theorem completedSessions_keys_sublist (fs : FS) :
    ((completedSessions fs).map (·.1)).Sublist (fs.sessions.map (·.1)) := by
  unfold completedSessions getActiveSessions
  exact ((List.filter_sublist _).trans (List.filter_sublist _)).map _

end Samantha.Merge

namespace Samantha.Merge

theorem mergeCompleted_run (fs : FS) (now : String)
    (h : (completedSessions fs).isEmpty = false) :
    mergeCompletedSessions fs false now =
      (completedSessions fs).foldl mergeOneSession
        (mergeGuidanceFiles fs (completedSessions fs) now) := by
  unfold mergeCompletedSessions
  dsimp only
  rw [h]
  simp

theorem mergeCompleted_noop (fs : FS) (now : String)
    (h : (completedSessions fs).isEmpty = true) :
    mergeCompletedSessions fs false now = fs := by
  unfold mergeCompletedSessions
  dsimp only
  rw [h]
  simp

theorem active_keys_sub (fs : FS) (sid : String)
    (h : sid ∉ fs.sessions.map (·.1)) : sid ∉ (getActiveSessions fs).map (·.1) := by
  intro hmem
  unfold getActiveSessions at hmem
  exact h (((List.filter_sublist fs.sessions).map
    (fun (p : String × SessionDir) => p.1)).mem hmem)

theorem completed_keys_sub (fs : FS) (sid : String)
    (h : sid ∉ fs.sessions.map (·.1)) : sid ∉ (completedSessions fs).map (·.1) := by
  intro hmem
  exact h ((completedSessions_keys_sublist fs).mem hmem)

end Samantha.Merge

/-- C8: running the session merge process on a session whose status is
`complete` moves its workspace (contents intact) out of the active
sessions and into the archive, so it no longer appears among active
sessions; a second run finds nothing to do for that session — it is not
selected again, its archive entry is untouched, and it stays out of the
active set (idempotence of the re-run for that session). Directory names
are unique, so session ids in the active set are distinct. -/
theorem C8_merge_archives_session
    (fs : Samantha.Merge.FS) (sid : String) (dir : Samantha.Merge.SessionDir)
    (now now2 : String)
    (hnodup : (fs.sessions.map (·.1)).Nodup)
    (hmem : (sid, dir) ∈ fs.sessions)
    (hstatus : Samantha.Merge.statusStr dir = "complete") :
    sid ∉ (Samantha.Merge.mergeCompletedSessions fs false now).sessions.map (·.1)
    ∧ sid ∉ (Samantha.Merge.getActiveSessions
        (Samantha.Merge.mergeCompletedSessions fs false now)).map (·.1)
    ∧ Samantha.Merge.fget
        (Samantha.Merge.mergeCompletedSessions fs false now).processed sid = some dir
    ∧ sid ∉ (Samantha.Merge.completedSessions
        (Samantha.Merge.mergeCompletedSessions fs false now)).map (·.1)
    ∧ Samantha.Merge.fget
        (Samantha.Merge.mergeCompletedSessions
          (Samantha.Merge.mergeCompletedSessions fs false now) false now2).processed sid =
        some dir
    ∧ sid ∉ (Samantha.Merge.mergeCompletedSessions
        (Samantha.Merge.mergeCompletedSessions fs false now) false now2).sessions.map (·.1) := by
  have hcomp : (sid, dir) ∈ Samantha.Merge.completedSessions fs :=
    Samantha.Merge.mem_completedSessions fs sid dir hmem hstatus
  have hne : (Samantha.Merge.completedSessions fs).isEmpty = false := by
    cases h : (Samantha.Merge.completedSessions fs) with
    | nil => rw [h] at hcomp; simp at hcomp
    | cons a l => rfl
  have hrun := Samantha.Merge.mergeCompleted_run fs now hne
  have ha : sid ∉ (Samantha.Merge.mergeCompletedSessions fs false now).sessions.map (·.1) := by
    rw [hrun]
    exact Samantha.Merge.fold_sessions_removes sid dir _ _ hcomp
  have hc : Samantha.Merge.fget
      (Samantha.Merge.mergeCompletedSessions fs false now).processed sid = some dir := by
    rw [hrun]
    exact Samantha.Merge.fold_processed_lookup sid dir _ _
      ((Samantha.Merge.completedSessions_keys_sublist fs).nodup hnodup) hcomp
  have hd : sid ∉ (Samantha.Merge.completedSessions
      (Samantha.Merge.mergeCompletedSessions fs false now)).map (·.1) :=
    Samantha.Merge.completed_keys_sub _ sid ha
  refine ⟨ha, Samantha.Merge.active_keys_sub _ sid ha, hc, hd, ?_, ?_⟩
  · cases h2 : (Samantha.Merge.completedSessions
        (Samantha.Merge.mergeCompletedSessions fs false now)).isEmpty with
    | true =>
      rw [Samantha.Merge.mergeCompleted_noop _ now2 h2]
      exact hc
    | false =>
      rw [Samantha.Merge.mergeCompleted_run _ now2 h2]
      rw [Samantha.Merge.fold_processed_frame sid _ _ hd]
      rw [Samantha.Merge.mergeGuidanceFiles_processed]
      exact hc
  · cases h2 : (Samantha.Merge.completedSessions
        (Samantha.Merge.mergeCompletedSessions fs false now)).isEmpty with
    | true =>
      rw [Samantha.Merge.mergeCompleted_noop _ now2 h2]
      exact ha
    | false =>
      rw [Samantha.Merge.mergeCompleted_run _ now2 h2]
      apply Samantha.Merge.fold_sessions_not_mem
      rw [Samantha.Merge.mergeGuidanceFiles_sessions]
      exact ha

/-- C8 witness: the two-session setup (one complete with guidance and
memories, one still processing) from the worked example. -/
theorem C8_merge_archives_session_witness :
    "A1" ∉ (Samantha.Merge.mergeCompletedSessions
        Samantha.Merge.exampleFS false "NOW").sessions.map (·.1)
    ∧ "A1" ∉ (Samantha.Merge.getActiveSessions
        (Samantha.Merge.mergeCompletedSessions
          Samantha.Merge.exampleFS false "NOW")).map (·.1)
    ∧ Samantha.Merge.fget
        (Samantha.Merge.mergeCompletedSessions
          Samantha.Merge.exampleFS false "NOW").processed "A1" =
        some Samantha.Merge.exampleDirA
    ∧ "A1" ∉ (Samantha.Merge.completedSessions
        (Samantha.Merge.mergeCompletedSessions
          Samantha.Merge.exampleFS false "NOW")).map (·.1)
    ∧ Samantha.Merge.fget
        (Samantha.Merge.mergeCompletedSessions
          (Samantha.Merge.mergeCompletedSessions Samantha.Merge.exampleFS false "NOW")
          false "NOW2").processed "A1" =
        some Samantha.Merge.exampleDirA
    ∧ "A1" ∉ (Samantha.Merge.mergeCompletedSessions
        (Samantha.Merge.mergeCompletedSessions Samantha.Merge.exampleFS false "NOW")
        false "NOW2").sessions.map (·.1) :=
  C8_merge_archives_session Samantha.Merge.exampleFS "A1" Samantha.Merge.exampleDirA
    "NOW" "NOW2" (by decide) (by decide) (by decide)
